import Mathlib

/-!
Verification development for the cord.js content-addressing and lifecycle core.

The TypeScript sources under verification are:
* `packages/schema-accounts/src/SchemaAccounts.ts` (canonical CBOR serialization,
  schema hashing, structural validation, `buildFromProperties`, `isISchema`);
* `packages/schema-accounts/src/SchemaAccounts.chain.ts` (`getUriForSchema`,
  `isSchemaStored`, `dispatchToChain`);
* `packages/entries/src/Entries.chain.ts` (entry lifecycle dispatch functions);
* `packages/namespace/src/Namespace.ts` (`getUriForAuthorization`);
* `packages/types/src/Namespace.ts` and the schema-accounts type declarations
  (identifier constants);
* `packages/transform/src/schema/Schema.types.ts` (`SchemaModel`, `SchemaModelV1`).

External collaborators that are not part of the repository (the `cbor-x`
encoder, `blake2AsHex`, base64 transport encoding, the SCALE codec, the
vendored draft-07 JSON-schema validator, and the `jsonabc` key sorter and
identifier helpers living outside the verified sources) are modelled from the
specification's contracts: the binary encoders are information-preserving
(injective) symbol-sequence encoders, and the hash is modelled as an injective
digest function, matching the spec's stated collision-resistance invariant.
Sequences of bytes are modelled as `List Nat` of abstract symbols.
-/

/-- JSON-like values: the data model over which schema records, validator
inputs and canonical serialization operate.  Objects are association lists,
so key order is observable — exactly what canonicalization must quotient out. -/
inductive JsonValue where
  | str (s : String)
  | num (n : Int)
  | bool (b : Bool)
  | null
  | arr (xs : List JsonValue)
  | obj (es : List (String × JsonValue))

/-- Size measure used as fuel bound for the decoder of the binary encoding. -/
def jSize : JsonValue → Nat
  | .str _ => 1
  | .num _ => 1
  | .bool _ => 1
  | .null => 1
  | .arr xs => 1 + jSizeArr xs
  | .obj es => 1 + jSizeObj es
where
  jSizeArr : List JsonValue → Nat
    | [] => 1
    | x :: t => 1 + jSize x + jSizeArr t
  jSizeObj : List (String × JsonValue) → Nat
    | [] => 1
    | (_, v) :: t => 1 + jSize v + jSizeObj t

/-- Injective code for integers inside the binary encoding. -/
def intCode : Int → Nat
  | .ofNat m => 2 * m
  | .negSucc m => 2 * m + 1

/-- Inverse of `intCode`. -/
def intDecode (n : Nat) : Int :=
  if n % 2 = 0 then .ofNat (n / 2) else .negSucc (n / 2)

/-- Length-prefixed symbol encoding of a string (its character codes). -/
def strCode (s : String) : List Nat :=
  s.data.length :: s.data.map Char.toNat

/-- Modelled from the spec: the compact, self-describing binary encoding of a
structured record ("map/array/scalar tags, no field-name repetition
ambiguity ... preserving information to exactly reconstruct the structure").
This stands in for the external `cbor-x` encoder (`Cbor.Encoder.encode`),
which is not part of the repository; the model is a tagged symbol-sequence
encoding for which the reconstruction property is proved below. -/
def cborEncode : JsonValue → List Nat
  | .null => [0]
  | .bool b => [1, Bool.rec 0 1 b]
  | .num n => [2, intCode n]
  | .str s => 3 :: strCode s
  | .arr xs => 4 :: xs.length :: cborEncodeArr xs
  | .obj es => 5 :: es.length :: cborEncodeObj es
where
  cborEncodeArr : List JsonValue → List Nat
    | [] => []
    | x :: t => cborEncode x ++ cborEncodeArr t
  cborEncodeObj : List (String × JsonValue) → List Nat
    | [] => []
    | (k, v) :: t => strCode k ++ cborEncode v ++ cborEncodeObj t

/-- Reads back a length-prefixed string from the front of a symbol stream. -/
def readStr : List Nat → Option (String × List Nat)
  | n :: r =>
    if n ≤ r.length then
      some (String.mk ((r.take n).map Char.ofNat), r.drop n)
    else none
  | [] => none

mutual

/-- Fuel-indexed decoder for `cborEncode`; the fuel strictly decreases on
every recursive call, so plain structural recursion on the fuel suffices. -/
def cborDecode : Nat → List Nat → Option (JsonValue × List Nat)
  | 0, _ => none
  | _ + 1, 0 :: r => some (.null, r)
  | _ + 1, 1 :: 0 :: r => some (.bool false, r)
  | _ + 1, 1 :: 1 :: r => some (.bool true, r)
  | _ + 1, 2 :: n :: r => some (.num (intDecode n), r)
  | _ + 1, 3 :: r =>
    match readStr r with
    | some (s, r') => some (.str s, r')
    | none => none
  | f + 1, 4 :: n :: r =>
    match cborDecodeArr f n r with
    | some (xs, r') => some (.arr xs, r')
    | none => none
  | f + 1, 5 :: n :: r =>
    match cborDecodeObj f n r with
    | some (es, r') => some (.obj es, r')
    | none => none
  | _ + 1, _ => none

/-- Decodes `n` consecutive array elements. -/
def cborDecodeArr : Nat → Nat → List Nat → Option (List JsonValue × List Nat)
  | 0, _, _ => none
  | _ + 1, 0, r => some ([], r)
  | f + 1, n + 1, r =>
    match cborDecode f r with
    | some (v, r') =>
      match cborDecodeArr f n r' with
      | some (vs, r'') => some (v :: vs, r'')
      | none => none
    | none => none

/-- Decodes `n` consecutive key/value entries. -/
def cborDecodeObj : Nat → Nat → List Nat → Option (List (String × JsonValue) × List Nat)
  | 0, _, _ => none
  | _ + 1, 0, r => some ([], r)
  | f + 1, n + 1, r =>
    match readStr r with
    | some (k, r') =>
      match cborDecode f r' with
      | some (v, r'') =>
        match cborDecodeObj f n r'' with
        | some (es, r''') => some ((k, v) :: es, r''')
        | none => none
      | none => none
    | none => none

end

theorem intDecode_intCode (n : Int) : intDecode (intCode n) = n := by
  cases n with
  | ofNat m => simp [intCode, intDecode, Nat.mul_div_cancel_left]
  | negSucc m =>
    simp [intCode, intDecode, Nat.mul_add_mod]
    omega

theorem readStr_strCode (s : String) (rest : List Nat) :
    readStr (strCode s ++ rest) = some (s, rest) := by
  simp only [strCode, readStr, List.cons_append, List.length_append,
    List.length_map]
  rw [if_pos (by omega)]
  rw [List.take_append_of_le_length (by simp), List.take_of_length_le (by simp)]
  rw [List.drop_append_of_le_length (by simp), List.drop_of_length_le (by simp)]
  simp only [List.nil_append, List.map_map]
  have : s.data.map (Char.ofNat ∘ Char.toNat) = s.data.map id := by
    apply List.map_congr_left
    intro c _
    exact Char.ofNat_toNat c
  rw [this, List.map_id]

theorem cborDecode_encode :
    ∀ f : Nat,
      (∀ v rest, jSize v ≤ f → cborDecode f (cborEncode v ++ rest) = some (v, rest)) ∧
      (∀ xs rest, jSize.jSizeArr xs ≤ f →
         cborDecodeArr f xs.length (cborEncode.cborEncodeArr xs ++ rest) = some (xs, rest)) ∧
      (∀ es rest, jSize.jSizeObj es ≤ f →
         cborDecodeObj f es.length (cborEncode.cborEncodeObj es ++ rest) = some (es, rest)) := by
  intro f
  induction f with
  | zero =>
    refine ⟨fun v rest h => ?_, fun xs rest h => ?_, fun es rest h => ?_⟩
    · cases v <;> simp [jSize] at h
    · cases xs <;> simp [jSize.jSizeArr] at h
    · cases es <;> simp [jSize.jSizeObj] at h
  | succ f ih =>
    obtain ⟨ihV, ihA, ihO⟩ := ih
    refine ⟨fun v rest h => ?_, fun xs rest h => ?_, fun es rest h => ?_⟩
    · cases v with
      | str s => simp [cborEncode, cborDecode, readStr_strCode]
      | num n => simp [cborEncode, cborDecode, intDecode_intCode]
      | bool b => cases b <;> simp [cborEncode, cborDecode]
      | null => simp [cborEncode, cborDecode]
      | arr xs =>
        simp only [cborEncode, List.cons_append, cborDecode]
        rw [ihA xs rest (by simp [jSize] at h; omega)]
      | obj es =>
        simp only [cborEncode, List.cons_append, cborDecode]
        rw [ihO es rest (by simp [jSize] at h; omega)]
    · cases xs with
      | nil => simp [cborEncode.cborEncodeArr, cborDecodeArr]
      | cons x t =>
        simp only [cborEncode.cborEncodeArr, List.length_cons, List.append_assoc,
          cborDecodeArr]
        rw [ihV x _ (by simp [jSize.jSizeArr] at h; omega)]
        dsimp only
        rw [ihA t rest (by simp [jSize.jSizeArr] at h; omega)]
    · cases es with
      | nil => simp [cborEncode.cborEncodeObj, cborDecodeObj]
      | cons e t =>
        obtain ⟨k, v⟩ := e
        simp only [cborEncode.cborEncodeObj, List.length_cons, List.append_assoc,
          cborDecodeObj]
        rw [readStr_strCode]
        dsimp only
        rw [ihV v _ (by simp [jSize.jSizeObj] at h; omega)]
        dsimp only
        rw [ihO t rest (by simp [jSize.jSizeObj] at h; omega)]

/-- The modelled binary encoding is information-preserving: distinct values
never share an encoding.  This is the reconstruction property the spec demands
of the canonical encoder. -/
theorem cborEncode_injective : Function.Injective cborEncode := by
  intro v w h
  have hv := (cborDecode_encode (jSize v + jSize w)).1 v [] (by omega)
  have hw := (cborDecode_encode (jSize v + jSize w)).1 w [] (by omega)
  rw [h, hw] at hv
  simpa using hv.symm

instance : DecidableEq JsonValue := fun a b =>
  decidable_of_iff (cborEncode a = cborEncode b)
    ⟨fun h => cborEncode_injective h, fun h => h ▸ rfl⟩

/-- Fuel-driven helper for `natDigits`; structural recursion on the fuel keeps
the definition kernel-reducible. -/
def natDigitsAux : Nat → Nat → List Nat
  | 0, _ => []
  | _ + 1, 0 => []
  | f + 1, n + 1 => ((n + 1) % 10) :: natDigitsAux f ((n + 1) / 10)

/-- Little-endian decimal digit list of a natural number (empty for zero). -/
def natDigits (n : Nat) : List Nat := natDigitsAux n n

theorem natDigitsAux_fuel {f f' n : Nat} (hf : n ≤ f) (hf' : n ≤ f') :
    natDigitsAux f n = natDigitsAux f' n := by
  induction f generalizing n f' with
  | zero =>
    have : n = 0 := Nat.le_zero.mp hf
    subst this
    cases f' <;> rfl
  | succ g ih =>
    cases n with
    | zero => cases f' <;> rfl
    | succ m =>
      cases f' with
      | zero => omega
      | succ g' =>
        rw [natDigitsAux, natDigitsAux]
        have hd : (m + 1) / 10 ≤ m := Nat.lt_succ_iff.mp (Nat.div_lt_self (Nat.succ_pos m) (by omega))
        rw [@ih g' ((m + 1) / 10) (by omega) (by omega)]

theorem natDigits_succ (n : Nat) :
    natDigits (n + 1) = ((n + 1) % 10) :: natDigits ((n + 1) / 10) := by
  have hd : (n + 1) / 10 ≤ n := Nat.lt_succ_iff.mp (Nat.div_lt_self (Nat.succ_pos n) (by omega))
  rw [natDigits, natDigitsAux, natDigits, natDigitsAux_fuel hd (le_refl _)]

/-- Symbol-sequence encoding of a list of symbols: ten is used as a separator
between the decimal digit runs, making the encoding self-delimiting. -/
def encSyms : List Nat → List Nat
  | [] => []
  | n :: t => natDigits n ++ 10 :: encSyms t

theorem natDigits_lt_ten {n : Nat} : ∀ d ∈ natDigits n, d < 10 := by
  induction n using Nat.strong_induction_on with
  | _ n ih =>
    cases n with
    | zero => simp [natDigits, natDigitsAux]
    | succ m =>
      rw [natDigits_succ]
      intro d hd
      rcases List.mem_cons.mp hd with h | h
      · omega
      · exact ih ((m + 1) / 10) (Nat.div_lt_self (Nat.succ_pos m) (by omega)) d h

theorem natDigits_sep_cancel :
    ∀ {a b : Nat} {r s : List Nat},
      natDigits a ++ 10 :: r = natDigits b ++ 10 :: s → a = b ∧ r = s := by
  intro a
  induction a using Nat.strong_induction_on with
  | _ a ih =>
    intro b r s h
    cases a with
    | zero =>
      cases b with
      | zero => simpa [natDigits, natDigitsAux] using h
      | succ m =>
        rw [natDigits_succ] at h
        simp only [natDigits, natDigitsAux, List.nil_append, List.cons_append,
          List.cons.injEq] at h
        omega
    | succ n =>
      cases b with
      | zero =>
        rw [natDigits_succ] at h
        simp only [natDigits, natDigitsAux, List.nil_append, List.cons_append,
          List.cons.injEq] at h
        omega
      | succ m =>
        rw [natDigits_succ, natDigits_succ] at h
        simp only [List.cons_append, List.cons.injEq] at h
        obtain ⟨hmod, htail⟩ := h
        have hrec := ih ((n + 1) / 10) (Nat.div_lt_self (Nat.succ_pos n) (by omega)) htail
        refine ⟨?_, hrec.2⟩
        obtain ⟨hdiv, -⟩ := hrec
        omega

theorem encSyms_injective : Function.Injective encSyms := by
  intro l
  induction l with
  | nil =>
    intro l' h
    cases l' with
    | nil => rfl
    | cons n t =>
      rw [encSyms, encSyms] at h
      exact absurd h.symm (by simp)
  | cons n t ih =>
    intro l' h
    cases l' with
    | nil =>
      rw [encSyms, encSyms] at h
      exact absurd h (by simp)
    | cons m t' =>
      rw [encSyms, encSyms] at h
      obtain ⟨h1, h2⟩ := natDigits_sep_cancel h
      rw [h1, ih h2]

theorem encSyms_le_ten {l : List Nat} : ∀ d ∈ encSyms l, d ≤ 10 := by
  induction l with
  | nil => simp [encSyms]
  | cons n t ih =>
    rw [encSyms]
    intro d hd
    rcases List.mem_append.mp hd with h | h
    · exact Nat.le_of_lt (natDigits_lt_ten d h)
    · rcases List.mem_cons.mp h with h | h
      · omega
      · exact ih d h

/-- Printable character for a symbol: decimal digits for `0`–`9` and `A` for
the separator symbol ten. -/
def alnumChar (d : Nat) : Char :=
  if d < 10 then Char.ofNat (48 + d) else 'A'

/-- Printable string rendering of a symbol sequence. -/
def symsToStr (l : List Nat) : String :=
  String.mk (l.map alnumChar)

theorem char_toNat_injective {a b : Char} (h : a.toNat = b.toNat) : a = b := by
  have ha := Char.ofNat_toNat a
  rw [h, Char.ofNat_toNat b] at ha
  exact ha.symm

theorem alnumChar_toNat_cancel :
    ∀ d < 11, ∀ d' < 11, (alnumChar d).toNat = (alnumChar d').toNat → d = d' := by
  decide

theorem map_alnumChar_cancel {l l' : List Nat}
    (hl : ∀ d ∈ l, d ≤ 10) (hl' : ∀ d ∈ l', d ≤ 10)
    (h : l.map alnumChar = l'.map alnumChar) : l = l' := by
  induction l generalizing l' with
  | nil => cases l' <;> simp_all
  | cons d t ih =>
    cases l' with
    | nil => simp at h
    | cons d' t' =>
      simp only [List.map_cons, List.cons.injEq] at h
      have hd : d = d' := by
        refine alnumChar_toNat_cancel d ?_ d' ?_ (by rw [h.1])
        · have := hl d (by simp); omega
        · have := hl' d' (by simp); omega
      rw [hd, ih (fun x hx => hl x (by simp [hx])) (fun x hx => hl' x (by simp [hx])) h.2]

/-- Modelled from the spec: transport encoding of binary data into a printable
string ("Output is then transport-encoded (e.g., to a printable form) ...").
This stands in for the external `Buffer.toString('base64')` conversion used by
`encodeCborSchema`; the model is printable and information-preserving. -/
def base64Encode (bytes : List Nat) : String :=
  symsToStr (encSyms bytes)

theorem base64Encode_injective : Function.Injective base64Encode := by
  intro l l' h
  simp only [base64Encode, symsToStr] at h
  injection h with h
  exact encSyms_injective (map_alnumChar_cancel encSyms_le_ten encSyms_le_ten h)

/-- Character codes of a string, the symbol view of its text. -/
def strSyms (s : String) : List Nat :=
  s.data.map Char.toNat

theorem strSyms_injective : Function.Injective strSyms := by
  intro s s' h
  have hmap : Function.Injective (List.map Char.toNat) :=
    List.map_injective_iff.mpr fun a b hab => char_toNat_injective hab
  have hdata : s.data = s'.data := hmap h
  cases s; cases s'
  exact congrArg String.mk (by simpa using hdata)

/-- Modelled from the spec: SCALE `Bytes` encoding of a string — a compact
length prefix followed by the content symbols (external `@polkadot` codec,
`api.createType('Bytes', s).toU8a()`). -/
def scaleBytesOfStr (s : String) : List Nat :=
  s.data.length :: strSyms s

theorem scaleBytesOfStr_injective : Function.Injective scaleBytesOfStr := by
  intro s s' h
  simp only [scaleBytesOfStr, List.cons.injEq] at h
  exact strSyms_injective h.2

/-- Modelled from the spec: the `blake2AsHex` digest of a symbol sequence.
The external hash is modelled as an injective printable digest, matching the
spec's invariant that identical inputs always yield identical digests and the
hash is collision-resistant. -/
def blake2AsHex (l : List Nat) : String :=
  "0x" ++ symsToStr (encSyms l)

theorem blake2AsHex_injective : Function.Injective blake2AsHex := by
  intro l l' h
  simp only [blake2AsHex] at h
  have hd : ("0x" ++ symsToStr (encSyms l)).data = ("0x" ++ symsToStr (encSyms l')).data := by
    rw [h]
  simp only [String.data_append, symsToStr] at hd
  have := List.append_cancel_left hd
  exact encSyms_injective (map_alnumChar_cancel encSyms_le_ten encSyms_le_ten this)

/-- Mirrors `Crypto.hashStr` (external `@cord.network/utils` crypto helper):
the blake2 digest of a string's text. -/
def hashStr (s : String) : String :=
  blake2AsHex (strSyms s)

/-- Modelled from the spec: formats a digest into a TypedURI
( "`<prefix>:<network-scope>:<encoded-digest>`", a kind-specific numeric
identifier and string prefix).  Stands in for the external
`@cord.network/identifier` helper of the same name. -/
def hashToUri (digest : String) (ident : Nat) (pfx : String) : String :=
  pfx ++ "m" ++ symsToStr (encSyms [ident]) ++ digest

theorem hashToUri_digest_cancel {d d' : String} {ident : Nat} {pfx : String}
    (h : hashToUri d ident pfx = hashToUri d' ident pfx) : d = d' := by
  simp only [hashToUri] at h
  have hd : (pfx ++ "m" ++ symsToStr (encSyms [ident]) ++ d).data
      = (pfx ++ "m" ++ symsToStr (encSyms [ident]) ++ d').data := by rw [h]
  simp only [String.data_append, List.append_assoc] at hd
  have := List.append_cancel_left (List.append_cancel_left (List.append_cancel_left hd))
  cases d; cases d'
  exact congrArg String.mk (by simpa using this)

/-- Fuel-driven splitter of a character list on a separator pattern, the
structural model of `String.splitOn`. -/
def splitOnListAux (sep : List Char) : Nat → List Char → List Char → List (List Char)
  | 0, acc, _ => [acc.reverse]
  | _ + 1, acc, [] => [acc.reverse]
  | f + 1, acc, l =>
    if sep.isPrefixOf l then
      acc.reverse :: splitOnListAux sep f [] (l.drop sep.length)
    else
      match l with
      | [] => [acc.reverse]
      | c :: rest => splitOnListAux sep f (c :: acc) rest

/-- Splits a character list on a (non-empty) separator pattern. -/
def splitOnList (sep l : List Char) : List (List Char) :=
  splitOnListAux sep l.length [] l

/-- Modelled from the spec: extracts the ledger identifier from a TypedURI —
the encoded-digest segment after the final `:` separator (external
`uriToIdentifier` helper of `@cord.network/identifier`). -/
def uriToIdentifier (uri : String) : String :=
  String.mk ((splitOnList [':'] uri.data).getLastD [])

/-- Well-formedness of a JSON value: object keys are duplicate-free at every
nesting level, as is inherent for JavaScript objects. -/
def wfV : JsonValue → Bool
  | .str _ => true
  | .num _ => true
  | .bool _ => true
  | .null => true
  | .arr xs => wfArr xs
  | .obj es => wfEntries es
where
  wfArr : List JsonValue → Bool
    | [] => true
    | x :: t => wfV x && wfArr t
  wfEntries : List (String × JsonValue) → Bool
    | [] => true
    | (k, v) :: t => !(t.any (fun e => e.1 == k)) && wfV v && wfEntries t

/-- Lexicographic order on character lists by character code; a structural,
kernel-reducible rendering of the locale-independent string order. -/
def lexLeB : List Char → List Char → Bool
  | [], _ => true
  | _ :: _, [] => false
  | a :: as, b :: bs =>
    if a.toNat < b.toNat then true
    else if b.toNat < a.toNat then false
    else lexLeB as bs

theorem lexLeB_total : ∀ a b, lexLeB a b = true ∨ lexLeB b a = true := by
  intro a
  induction a with
  | nil => intro b; left; rfl
  | cons c as ih =>
    intro b
    cases b with
    | nil => right; rfl
    | cons d bs =>
      rw [lexLeB, lexLeB]
      rcases Nat.lt_trichotomy c.toNat d.toNat with h | h | h
      · left; simp [h]
      · have h1 : ¬ c.toNat < d.toNat := by omega
        have h2 : ¬ d.toNat < c.toNat := by omega
        rcases ih bs with hl | hl
        · left; simp [h1, h2, hl]
        · right; simp [h1, h2, hl]
      · right; simp [h]

theorem lexLeB_trans : ∀ {a b c}, lexLeB a b = true → lexLeB b c = true →
    lexLeB a c = true := by
  intro a
  induction a with
  | nil => intro b c _ _; rfl
  | cons x as ih =>
    intro b c hab hbc
    cases b with
    | nil => simp [lexLeB] at hab
    | cons y bs =>
      cases c with
      | nil => simp [lexLeB] at hbc
      | cons z cs =>
        rw [lexLeB] at hab hbc ⊢
        rcases Nat.lt_trichotomy x.toNat y.toNat with h1 | h1 | h1 <;>
          rcases Nat.lt_trichotomy y.toNat z.toNat with h2 | h2 | h2
        · simp [show x.toNat < z.toNat by omega]
        · simp [show x.toNat < z.toNat by omega]
        · simp [show ¬ y.toNat < z.toNat by omega, h2] at hbc
        · simp [show x.toNat < z.toNat by omega]
        · rw [if_neg (show ¬ x.toNat < y.toNat by omega),
            if_neg (show ¬ y.toNat < x.toNat by omega)] at hab
          rw [if_neg (show ¬ y.toNat < z.toNat by omega),
            if_neg (show ¬ z.toNat < y.toNat by omega)] at hbc
          rw [if_neg (show ¬ x.toNat < z.toNat by omega),
            if_neg (show ¬ z.toNat < x.toNat by omega)]
          exact ih hab hbc
        · simp [show ¬ y.toNat < z.toNat by omega, h2] at hbc
        · simp [show ¬ x.toNat < y.toNat by omega, h1] at hab
        · simp [show ¬ x.toNat < y.toNat by omega, h1] at hab
        · simp [show ¬ x.toNat < y.toNat by omega, h1] at hab

theorem lexLeB_antisym : ∀ {a b}, lexLeB a b = true → lexLeB b a = true → a = b := by
  intro a
  induction a with
  | nil =>
    intro b _ hba
    cases b with
    | nil => rfl
    | cons d bs => simp [lexLeB] at hba
  | cons c as ih =>
    intro b hab hba
    cases b with
    | nil => simp [lexLeB] at hab
    | cons d bs =>
      rw [lexLeB] at hab hba
      by_cases h1 : c.toNat < d.toNat <;> by_cases h2 : d.toNat < c.toNat <;>
        simp [h1, h2] at hab hba
      · omega
      · have : c = d := char_toNat_injective (by omega)
        rw [this, ih hab hba]

/-- Key order on object entries used by the canonical sort. -/
def entryLe (a b : String × JsonValue) : Prop := lexLeB a.1.data b.1.data = true

/-- Strict version of the key order, used to state uniqueness of sorted
duplicate-free entry lists. -/
def entryLt (a b : String × JsonValue) : Prop := entryLe a b ∧ a.1 ≠ b.1

instance : DecidableRel entryLe := fun a b =>
  inferInstanceAs (Decidable (lexLeB a.1.data b.1.data = true))

instance : IsTotal (String × JsonValue) entryLe := ⟨fun a b => lexLeB_total a.1.data b.1.data⟩

instance : IsTrans (String × JsonValue) entryLe := ⟨fun _ _ _ h1 h2 => lexLeB_trans h1 h2⟩

instance : IsAntisymm (String × JsonValue) entryLt :=
  ⟨fun a b h1 h2 => by
    have hdata := lexLeB_antisym h1.1 h2.1
    have : a.1 = b.1 := by
      obtain ⟨s, _⟩ := a
      obtain ⟨t, _⟩ := b
      cases s; cases t
      exact congrArg String.mk (by simpa using hdata)
    exact absurd this h1.2⟩

/-- Modelled from the spec: recursive, locale-independent lexicographic key
sorting of a record at every nesting level ("Recursively sorts object keys in
a fixed, locale-independent lexicographic order at every nesting level").
Stands in for the external `jsonabc.sortObj` helper used by
`encodeCborSchema`. -/
def sortObj : JsonValue → JsonValue
  | .str s => .str s
  | .num n => .num n
  | .bool b => .bool b
  | .null => .null
  | .arr xs => .arr (sortObjArr xs)
  | .obj es => .obj (List.insertionSort entryLe (sortObjEntries es))
where
  sortObjArr : List JsonValue → List JsonValue
    | [] => []
    | x :: t => sortObj x :: sortObjArr t
  sortObjEntries : List (String × JsonValue) → List (String × JsonValue)
    | [] => []
    | (k, v) :: t => (k, sortObj v) :: sortObjEntries t

/-- Logical content equality of JSON values: the least congruence that
ignores the order of object keys at every nesting level.  Adjacent entry
transpositions together with transitivity generate all key permutations. -/
inductive JEq : JsonValue → JsonValue → Prop where
  | refl (v) : JEq v v
  | trans {a b c} : JEq a b → JEq b c → JEq a c
  | objSwap (a b : String × JsonValue) (t) :
      JEq (.obj (a :: b :: t)) (.obj (b :: a :: t))
  | objHead {v w} (k) (t) : JEq v w → JEq (.obj ((k, v) :: t)) (.obj ((k, w) :: t))
  | objTail {t t'} (e) : JEq (.obj t) (.obj t') → JEq (.obj (e :: t)) (.obj (e :: t'))
  | arrHead {x y} (t) : JEq x y → JEq (.arr (x :: t)) (.arr (y :: t))
  | arrTail {t t'} (x) : JEq (.arr t) (.arr t') → JEq (.arr (x :: t)) (.arr (x :: t'))

theorem JEq.symm : ∀ {a b}, JEq a b → JEq b a := by
  intro a b h
  induction h with
  | refl v => exact .refl v
  | trans _ _ ih1 ih2 => exact .trans ih2 ih1
  | objSwap a b t => exact .objSwap b a t
  | objHead k t _ ih => exact .objHead k t ih
  | objTail e _ ih => exact .objTail e ih
  | arrHead t _ ih => exact .arrHead t ih
  | arrTail x _ ih => exact .arrTail x ih

theorem sortObjEntries_eq_map (t : List (String × JsonValue)) :
    sortObj.sortObjEntries t = t.map (fun e => (e.1, sortObj e.2)) := by
  induction t with
  | nil => rfl
  | cons e t ih => obtain ⟨k, v⟩ := e; simp [sortObj.sortObjEntries, ih]

theorem sortObjArr_eq_map (t : List JsonValue) :
    sortObj.sortObjArr t = t.map sortObj := by
  induction t with
  | nil => rfl
  | cons x t ih => simp [sortObj.sortObjArr, ih]

theorem wfEntries_nodup_keys {es : List (String × JsonValue)}
    (h : wfV.wfEntries es = true) : (es.map Prod.fst).Nodup := by
  induction es with
  | nil => simp
  | cons e t ih =>
    obtain ⟨k, v⟩ := e
    simp only [wfV.wfEntries, Bool.and_eq_true, Bool.not_eq_true'] at h
    obtain ⟨⟨hk, -⟩, ht⟩ := h
    simp only [List.map_cons, List.nodup_cons]
    refine ⟨fun hmem => ?_, ih ht⟩
    obtain ⟨e', he', hke⟩ := List.mem_map.mp hmem
    have : t.any (fun e => e.1 == k) = true :=
      List.any_eq_true.mpr ⟨e', he', by simp [hke]⟩
    simp [this] at hk

theorem sorted_entries_strict {l : List (String × JsonValue)}
    (h : l.Sorted entryLe) (hn : (l.map Prod.fst).Nodup) : l.Sorted entryLt := by
  have hne : l.Pairwise (fun a b => a.1 ≠ b.1) := List.pairwise_map.mp hn
  exact (h.and hne).imp fun hab => ⟨hab.1, hab.2⟩

/-- Two sorted entry lists that are permutations of each other and have
duplicate-free keys are equal: the canonical sorted form is unique. -/
theorem sorted_entries_eq {l₁ l₂ : List (String × JsonValue)}
    (hp : l₁.Perm l₂) (h₁ : l₁.Sorted entryLe) (h₂ : l₂.Sorted entryLe)
    (hn : (l₁.map Prod.fst).Nodup) : l₁ = l₂ := by
  have hn₂ : (l₂.map Prod.fst).Nodup := (hp.map Prod.fst).nodup_iff.mp hn
  exact List.eq_of_perm_of_sorted hp (sorted_entries_strict h₁ hn)
    (sorted_entries_strict h₂ hn₂)

theorem jeq_orderedInsert (a : String × JsonValue) (l : List (String × JsonValue)) :
    JEq (.obj (a :: l)) (.obj (List.orderedInsert entryLe a l)) := by
  induction l with
  | nil => exact .refl _
  | cons b t ih =>
    by_cases hle : entryLe a b
    · simp only [List.orderedInsert, if_pos hle]
      exact .refl _
    · simp only [List.orderedInsert, if_neg hle]
      exact .trans (.objSwap a b t) (.objTail b ih)

theorem jeq_insertionSort (l : List (String × JsonValue)) :
    JEq (.obj l) (.obj (List.insertionSort entryLe l)) := by
  induction l with
  | nil => exact .refl _
  | cons a t ih =>
    simp only [List.insertionSort]
    exact .trans (.objTail a ih) (jeq_orderedInsert a _)

theorem jeq_sortObj_self_all :
    ∀ f : Nat,
      (∀ v, jSize v ≤ f → JEq v (sortObj v)) ∧
      (∀ xs, jSize.jSizeArr xs ≤ f → JEq (.arr xs) (.arr (sortObj.sortObjArr xs))) ∧
      (∀ es, jSize.jSizeObj es ≤ f → JEq (.obj es) (.obj (sortObj.sortObjEntries es))) := by
  intro f
  induction f with
  | zero =>
    refine ⟨fun v h => ?_, fun xs h => ?_, fun es h => ?_⟩
    · cases v <;> simp [jSize] at h
    · cases xs <;> simp [jSize.jSizeArr] at h
    · cases es <;> simp [jSize.jSizeObj] at h
  | succ f ih =>
    obtain ⟨ihV, ihA, ihO⟩ := ih
    refine ⟨fun v h => ?_, fun xs h => ?_, fun es h => ?_⟩
    · cases v with
      | str s => exact .refl _
      | num n => exact .refl _
      | bool b => exact .refl _
      | null => exact .refl _
      | arr xs => exact ihA xs (by simp [jSize] at h; omega)
      | obj es =>
        refine .trans (ihO es (by simp [jSize] at h; omega)) ?_
        exact jeq_insertionSort _
    · cases xs with
      | nil => exact .refl _
      | cons x t =>
        rw [sortObj.sortObjArr]
        refine .trans (.arrHead t (ihV x (by simp [jSize.jSizeArr] at h; omega))) ?_
        exact .arrTail _ (ihA t (by simp [jSize.jSizeArr] at h; omega))
    · cases es with
      | nil => exact .refl _
      | cons e t =>
        obtain ⟨k, v⟩ := e
        rw [sortObj.sortObjEntries]
        refine .trans (.objHead k t (ihV v (by simp [jSize.jSizeObj] at h; omega))) ?_
        exact .objTail _ (ihO t (by simp [jSize.jSizeObj] at h; omega))

theorem jeq_sortObj_self (v : JsonValue) : JEq v (sortObj v) :=
  (jeq_sortObj_self_all (jSize v)).1 v (le_refl _)

/-- Keys of an object value (empty for other shapes). -/
def objKeys : JsonValue → List String
  | .obj es => es.map Prod.fst
  | _ => []

theorem keys_sortObjEntries (l : List (String × JsonValue)) :
    (sortObj.sortObjEntries l).map Prod.fst = l.map Prod.fst := by
  rw [sortObjEntries_eq_map, List.map_map]
  rfl

theorem jeq_objKeys_perm {a b : JsonValue} (h : JEq a b) :
    (objKeys a).Perm (objKeys b) := by
  induction h with
  | refl v => exact List.Perm.refl _
  | trans _ _ ih1 ih2 => exact ih1.trans ih2
  | objSwap a b t => simpa [objKeys] using List.Perm.swap b.1 a.1 (t.map Prod.fst)
  | objHead k t _ _ => simp [objKeys]
  | objTail e _ ih => simpa [objKeys] using ih.cons e.1
  | arrHead t _ _ => simp [objKeys]
  | arrTail x _ _ => simp [objKeys]

theorem jeq_wf {a b : JsonValue} (h : JEq a b) (ha : wfV a = true) : wfV b = true := by
  induction h with
  | refl v => exact ha
  | trans _ _ ih1 ih2 => exact ih2 (ih1 ha)
  | objSwap a b t =>
    obtain ⟨k1, v1⟩ := a
    obtain ⟨k2, v2⟩ := b
    simp only [wfV, wfV.wfEntries, List.any_cons, Bool.and_eq_true, Bool.not_eq_true',
      Bool.or_eq_false_iff, beq_eq_false_iff_ne] at ha ⊢
    exact ⟨⟨⟨Ne.symm ha.1.1.1, ha.2.1.1⟩, ha.2.1.2⟩, ⟨ha.1.1.2, ha.1.2⟩, ha.2.2⟩
  | objHead k t hvw ih =>
    simp only [wfV, wfV.wfEntries, Bool.and_eq_true] at ha ⊢
    exact ⟨⟨ha.1.1, ih ha.1.2⟩, ha.2⟩
  | objTail e hrec ih =>
    obtain ⟨k, v⟩ := e
    simp only [wfV, wfV.wfEntries, Bool.and_eq_true, Bool.not_eq_true'] at ha ⊢
    obtain ⟨⟨hfree, hv⟩, ht⟩ := ha
    refine ⟨⟨?_, hv⟩, ih ht⟩
    have hkeys := jeq_objKeys_perm hrec
    simp only [objKeys] at hkeys
    rw [List.any_eq_false] at hfree ⊢
    intro e' he'
    have h1 : e'.1 ∈ (List.map Prod.fst _) := List.mem_map_of_mem Prod.fst he'
    have h2 := (hkeys.mem_iff).mpr h1
    obtain ⟨e'', he'', hfst⟩ := List.mem_map.mp h2
    have h3 := hfree e'' he''
    simp only [beq_eq_false_iff_ne] at h3 ⊢
    exact hfst ▸ h3
  | arrHead t hxy ih =>
    simp only [wfV, wfV.wfArr, Bool.and_eq_true] at ha ⊢
    exact ⟨ih ha.1, ha.2⟩
  | arrTail x hrec ih =>
    simp only [wfV, wfV.wfArr, Bool.and_eq_true] at ha ⊢
    have := ih (by simpa [wfV] using ha.2)
    exact ⟨ha.1, by simpa [wfV] using this⟩

/-- The insertion sort of an entry list depends only on the multiset of
entries, provided keys are duplicate-free. -/
theorem insertionSort_perm_eq {l₁ l₂ : List (String × JsonValue)}
    (hp : l₁.Perm l₂) (hn : (l₁.map Prod.fst).Nodup) :
    List.insertionSort entryLe l₁ = List.insertionSort entryLe l₂ := by
  have hperm : (List.insertionSort entryLe l₁).Perm (List.insertionSort entryLe l₂) :=
    ((List.perm_insertionSort entryLe l₁).trans hp).trans
      (List.perm_insertionSort entryLe l₂).symm
  have hnod : ((List.insertionSort entryLe l₁).map Prod.fst).Nodup :=
    (((List.perm_insertionSort entryLe l₁).map Prod.fst).nodup_iff).mpr hn
  exact sorted_entries_eq hperm (List.sorted_insertionSort entryLe l₁)
    (List.sorted_insertionSort entryLe l₂) hnod

theorem keys_map_sortPair (l : List (String × JsonValue)) :
    ((l.map fun e => (e.1, sortObj e.2)).map Prod.fst) = l.map Prod.fst := by
  rw [List.map_map]
  simp

/-- Canonical sorting identifies exactly the values with equal logical
content: permuting object keys (at any nesting level) of a well-formed value
does not change its canonical form. -/
theorem jeq_sortObj {a b : JsonValue} (h : JEq a b) (ha : wfV a = true) :
    sortObj a = sortObj b := by
  induction h with
  | refl v => rfl
  | trans h1 h2 ih1 ih2 => exact (ih1 ha).trans (ih2 (jeq_wf h1 ha))
  | objSwap a b t =>
    simp only [sortObj, JsonValue.obj.injEq]
    rw [sortObjEntries_eq_map, sortObjEntries_eq_map]
    apply insertionSort_perm_eq
    · simp only [List.map_cons]
      exact List.Perm.swap _ _ _
    · rw [keys_map_sortPair]
      exact wfEntries_nodup_keys (by simpa [wfV] using ha)
  | objHead k t hvw ih =>
    simp only [wfV, wfV.wfEntries, Bool.and_eq_true] at ha
    simp only [sortObj, JsonValue.obj.injEq, sortObj.sortObjEntries]
    rw [ih ha.1.2]
  | objTail e hrec ih =>
    obtain ⟨k, v⟩ := e
    simp only [wfV, wfV.wfEntries, Bool.and_eq_true] at ha
    have htail := ih (by simpa [wfV] using ha.2)
    simp only [sortObj, JsonValue.obj.injEq] at htail ⊢
    simp only [sortObj.sortObjEntries, List.insertionSort]
    rw [htail]
  | arrHead t hxy ih =>
    simp only [wfV, wfV.wfArr, Bool.and_eq_true] at ha
    simp only [sortObj, JsonValue.arr.injEq, sortObj.sortObjArr]
    rw [ih ha.1]
  | arrTail x hrec ih =>
    simp only [wfV, wfV.wfArr, Bool.and_eq_true] at ha
    have htail := ih (by simpa [wfV] using ha.2)
    simp only [sortObj, JsonValue.arr.injEq] at htail ⊢
    simp only [sortObj.sortObjArr]
    rw [htail]

/-- Values with equal canonical forms have equal logical content. -/
theorem jeq_of_sortObj_eq {a b : JsonValue} (h : sortObj a = sortObj b) : JEq a b :=
  (jeq_sortObj_self a).trans (h ▸ (jeq_sortObj_self b).symm)

/-- Sorting commutes with key-based filtering on duplicate-free entry lists. -/
theorem insertionSort_filter (q : (String × JsonValue) → Bool)
    {l : List (String × JsonValue)} (hn : (l.map Prod.fst).Nodup) :
    List.insertionSort entryLe (l.filter q) = (List.insertionSort entryLe l).filter q := by
  apply sorted_entries_eq
  · exact (List.perm_insertionSort entryLe _).trans
      ((List.perm_insertionSort entryLe l).symm.filter q)
  · exact List.sorted_insertionSort entryLe _
  · exact (List.sorted_insertionSort entryLe l).filter q
  · have hsub : ((l.filter q).map Prod.fst).Nodup :=
      List.Nodup.sublist ((List.filter_sublist l).map Prod.fst) hn
    exact ((List.perm_insertionSort entryLe (l.filter q)).map Prod.fst).nodup_iff.mpr hsub

/-- First value bound to key `k` in an entry list — the model of JavaScript
property access `object[k]`. -/
def getField (es : List (String × JsonValue)) (k : String) : Option JsonValue :=
  (es.find? fun e => e.1 == k).map Prod.snd

/-- Whether key `k` is present — the model of draft-07 `required`. -/
def hasField (es : List (String × JsonValue)) (k : String) : Bool :=
  (es.find? fun e => e.1 == k).isSome

/-- Draft-07 `properties` semantics: the named property is constrained only
when present. -/
def fieldOk (es : List (String × JsonValue)) (k : String) (p : JsonValue → Bool) : Bool :=
  match getField es k with
  | some x => p x
  | none => true

/-- Draft-07 `additionalProperties: false` with a set of declared keys. -/
def allowedKeys (es : List (String × JsonValue)) (ks : List String) : Bool :=
  es.all fun e => ks.contains e.1

/-- The meta-schema identifier `SchemaModelV1.$id` from `Schema.types.ts`. -/
def SchemaModelV1Id : String := "http://cord.network/draft-01/schema#"

def isStrB : JsonValue → Bool
  | .str _ => true
  | _ => false

def isNumB : JsonValue → Bool
  | .num _ => true
  | _ => false

def isBoolB : JsonValue → Bool
  | .bool _ => true
  | _ => false

def isArrayOfStrings : JsonValue → Bool
  | .arr xs => xs.all isStrB
  | _ => false

def isArrayOfNumbers : JsonValue → Bool
  | .arr xs => xs.all isNumB
  | _ => false

/-- The regular expression `^schema:cord:m[0-9a-zA-Z]+$` of `SchemaModelV1`. -/
def schemaIdPatternOk (s : String) : Bool :=
  "schema:cord:m".data.isPrefixOf s.data && !(s.data.drop 13).isEmpty &&
    (s.data.drop 13).all Char.isAlphanum

/-- The regular expression `^schema:cord:m[0-9a-zA-Z]+(#/properties/.+)?$` of
the `schemaReference` definition (`format: 'uri'` is annotation-only, as in
draft-07). -/
def refPatternOk (s : String) : Bool :=
  match splitOnList "#/properties/".data s.data with
  | [b] => schemaIdPatternOk (String.mk b)
  | b :: rest => schemaIdPatternOk (String.mk b) &&
      !(List.intercalate "#/properties/".data rest).isEmpty
  | [] => false

/-- Transcription of `SchemaModelV1.definitions.string` (draft-07 semantics:
object-applicable keywords hold vacuously for non-object instances). -/
def matchesStringDef : JsonValue → Bool
  | .obj es =>
    allowedKeys es ["type", "format", "enum", "minLength", "maxLength"] &&
    hasField es "type" &&
    fieldOk es "type" (fun x => x == .str "string") &&
    fieldOk es "format"
      (fun x => x == .str "date" || x == .str "time" || x == .str "uri") &&
    fieldOk es "enum" isArrayOfStrings &&
    fieldOk es "minLength" isNumB &&
    fieldOk es "maxLength" isNumB
  | _ => true

/-- Transcription of `SchemaModelV1.definitions.number`. -/
def matchesNumberDef : JsonValue → Bool
  | .obj es =>
    allowedKeys es ["type", "enum", "minimum", "maximum"] &&
    hasField es "type" &&
    fieldOk es "type" (fun x => x == .str "integer" || x == .str "number") &&
    fieldOk es "enum" isArrayOfNumbers &&
    fieldOk es "minimum" isNumB &&
    fieldOk es "maximum" isNumB
  | _ => true

/-- Transcription of `SchemaModelV1.definitions.boolean`. -/
def matchesBooleanDef : JsonValue → Bool
  | .obj es =>
    allowedKeys es ["type"] &&
    hasField es "type" &&
    fieldOk es "type" (fun x => x == .str "boolean")
  | _ => true

/-- Transcription of `SchemaModelV1.definitions.schemaReference`. -/
def matchesRefDef : JsonValue → Bool
  | .obj es =>
    allowedKeys es ["$ref"] &&
    hasField es "$ref" &&
    fieldOk es "$ref" (fun x =>
      match x with
      | .str s => refPatternOk s
      | _ => false)
  | _ => true

/-- Transcription of `SchemaModelV1.definitions.array`: `items` holds a
subschema that must match exactly one of the four scalar/reference
alternatives (`oneOf`). -/
def matchesArrayDef : JsonValue → Bool
  | .obj es =>
    allowedKeys es ["type", "items", "minItems", "maxItems"] &&
    hasField es "type" && hasField es "items" &&
    fieldOk es "type" (fun x => x == .str "array") &&
    fieldOk es "items" (fun x =>
      (List.count true [matchesStringDef x, matchesNumberDef x,
        matchesBooleanDef x, matchesRefDef x]) == 1) &&
    fieldOk es "minItems" isNumB &&
    fieldOk es "maxItems" isNumB
  | _ => true

mutual

/-- Draft-07 `oneOf` over the six property-type alternatives of
`SchemaModelV1.properties.properties.patternProperties`: exactly one
alternative must match.  Structural recursion on the fuel keeps the
definition kernel-reducible; `fuelFor` below always supplies enough. -/
def oneOfSixF : Nat → JsonValue → Bool
  | 0, _ => false
  | f + 1, v =>
    (List.count true [matchesStringDef v, matchesNumberDef v, matchesBooleanDef v,
      matchesRefDef v, matchesArrayDef v, matchesObjectDefF f v]) == 1

/-- Transcription of `SchemaModelV1.definitions.object`: it declares the three
property names `type`, `properties` and `patternProperties` (the last is a
declared property *name* inside `properties`, not a schema-level keyword), so
`additionalProperties: false` closes the instance's keys to exactly those
three; `type` is required and constrained to `'object'`; the `properties`
member (when present) is an object whose non-empty-named members each satisfy
the six-way `oneOf`; the declared `patternProperties` member's subschema
`{'^.+$': {oneOf: ...}}` consists solely of the unknown keyword `'^.+$'`,
which draft-07 ignores, so that member is unconstrained. -/
def matchesObjectDefF : Nat → JsonValue → Bool
  | 0, _ => false
  | f + 1, .obj es =>
    allowedKeys es ["type", "properties", "patternProperties"] &&
    hasField es "type" &&
    fieldOk es "type" (fun x => x == .str "object") &&
    (match getField es "properties" with
     | some (.obj ps) => patternOneOfSixF f ps
     | some _ => false
     | none => true)
  | _ + 1, _ => true

/-- Draft-07 `patternProperties: {'^.+$': ...}`: every member whose name is
non-empty must satisfy the `oneOf` of the six alternatives. -/
def patternOneOfSixF : Nat → List (String × JsonValue) → Bool
  | 0, _ => false
  | _ + 1, [] => true
  | f + 1, (k, w) :: t => (k.isEmpty || oneOfSixF f w) && patternOneOfSixF f t

end

/-- Ample fuel for the `oneOf` recursion over a value of this size. -/
def fuelFor (v : JsonValue) : Nat := 3 * jSize v + 3

/-- Transcription of the `$metadata` member schema of `SchemaModelV1`. -/
def metadataFieldOk : JsonValue → Bool
  | .obj ms =>
    fieldOk ms "version" isStrB &&
    fieldOk ms "slug" isStrB &&
    fieldOk ms "discoverable" isBoolB
  | _ => false

/-- Transcription of the top-level `properties` member schema of
`SchemaModelV1`: an object each of whose non-empty-named members satisfies
the `oneOf` of the six property-type alternatives. -/
def propsTopOk (x : JsonValue) : Bool :=
  match x with
  | .obj ps => patternOneOfSixF (fuelFor (.obj ps)) ps
  | _ => false

/-- Transcription of `SchemaModelV1` from `Schema.types.ts` under draft-07
semantics: required members, the closed-world `additionalProperties: false`
key policy, and each declared member's subschema. -/
def conformsToV1 : JsonValue → Bool
  | .obj es =>
    (["$id", "$schema", "additionalProperties", "properties", "title", "type"].all
      fun k => hasField es k) &&
    allowedKeys es ["$id", "$schema", "$metadata", "title", "description", "type",
      "properties", "additionalProperties", "required"] &&
    fieldOk es "$id" (fun x =>
      match x with
      | .str s => schemaIdPatternOk s
      | _ => false) &&
    fieldOk es "$schema" isStrB &&
    fieldOk es "$metadata" metadataFieldOk &&
    fieldOk es "title" isStrB &&
    fieldOk es "description" isStrB &&
    fieldOk es "type" (fun x => x == .str "object") &&
    fieldOk es "properties" propsTopOk &&
    fieldOk es "additionalProperties" (fun x => x == .bool false) &&
    fieldOk es "required" isArrayOfStrings
  | _ => false

/-- Transcription of `SchemaModel` from `Schema.types.ts`: an `allOf` of
(1) a subschema constraining the `$schema` member to the constant
`SchemaModelV1.$id` when present, and (2) a reference to `SchemaModelV1`. -/
def conformsToSchemaModel (v : JsonValue) : Bool :=
  schemaConstOk v && conformsToV1 v
where
  schemaConstOk : JsonValue → Bool
    | .obj es => fieldOk es "$schema" (fun x => x == .str SchemaModelV1Id)
    | _ => true

/-- `SCHEMA_ACCOUNTS_IDENT` from the schema-accounts type declarations. -/
def SCHEMA_ACCOUNTS_IDENT : Nat := 10501

/-- Modelled from the spec: the schema kind's reserved URI tag (the source
constant `SCHEMA_PREFIX` of `@cord.network/types`, whose declaration file is
not among the sources; its value is fixed by the `$id` pattern
`^schema:cord:m...$` of `SchemaModelV1`). -/
def SCHEMA_PFX : String := "schema:cord:"

/-- `NAMESPACE_IDENT` from `packages/types/src/Namespace.ts`. -/
def NAMESPACE_IDENT : Nat := 12501

/-- The namespace kind's URI tag (`NAMESPACE_PREFIX` in
`packages/types/src/Namespace.ts`). -/
def NAMESPACE_PFX : String := "namespace:cord:"

/-- `NAMESPACEAUTH_IDENT` from `packages/types/src/Namespace.ts`. -/
def NAMESPACEAUTH_IDENT : Nat := 13101

/-- The namespace-authorization kind's URI tag (`NAMESPACEAUTH_PREFIX` in
`packages/types/src/Namespace.ts`). -/
def NAMESPACEAUTH_PFX : String := "namespaceauth:cord:"

/-- Mirrors the rest-destructuring `const { $id, ...schemaWithoutId } = schema`
of `encodeCborSchema`: the record without its identifier field. -/
def removeId (r : List (String × JsonValue)) : List (String × JsonValue) :=
  r.filter fun e => !(e.1 == "$id")

/-- Mirrors `encodeCborSchema` of `SchemaAccounts.ts`: strips `$id`, sorts the
record deterministically (`jsonabc.sortObj`), CBOR-encodes it and converts the
binary to the base64 transport form. -/
def encodeCborSchema (schema : List (String × JsonValue)) : String :=
  base64Encode (cborEncode (sortObj (.obj (removeId schema))))

/-- Mirrors `getHashForSchema` of `SchemaAccounts.ts`: the digest of the
serialized (transport-encoded) schema string. -/
def getHashForSchema (schema : List (String × JsonValue)) : String :=
  hashStr (encodeCborSchema schema)

structure SchemaUriAndDigest where
  uri : String
  digest : String
  deriving DecidableEq

/-- Mirrors `getUriForSchema` of `SchemaAccounts.chain.ts`: serializes the
schema, takes its digest, SCALE-encodes the serialized string, hashes that
with blake2 and formats the result with the schema ident and tag. -/
def getUriForSchema (schema : List (String × JsonValue)) : SchemaUriAndDigest :=
  let serializedSchema := encodeCborSchema schema
  let digest := hashStr serializedSchema
  let scaleEncodedSchema := scaleBytesOfStr serializedSchema
  let IdDigest := blake2AsHex scaleEncodedSchema
  ⟨hashToUri IdDigest SCHEMA_ACCOUNTS_IDENT SCHEMA_PFX, digest⟩

/-- The error kinds of the schema validation path: generic structural failure
(`SDKErrors.ObjectUnverifiableError`) and identifier mismatch
(`SDKErrors.SchemaIdMismatchError`, carrying the recomputed URI and the
declared identifier). -/
inductive SchemaError where
  | objectUnverifiable
  | schemaIdMismatch (expected : String) (actual : Option JsonValue)
  deriving DecidableEq

/-- Mirrors `verifyObjectAgainstSchema(object, SchemaModel)` of
`SchemaAccounts.ts`: succeeds when the object conforms to the meta-schema and
raises `ObjectUnverifiableError` otherwise (the vendored draft-07 validator is
modelled by `conformsToSchemaModel`). -/
def verifyObjectAgainstSchemaModel (object : JsonValue) : Except SchemaError Unit :=
  if conformsToSchemaModel object then .ok () else .error .objectUnverifiable

/-- Mirrors `verifySchemaStructure` of `SchemaAccounts.ts`: structural
validation against `SchemaModel`, then comparison of the declared `$id`
against the URI recomputed from the record's content. -/
def verifySchemaStructure (input : List (String × JsonValue)) : Except SchemaError Unit :=
  match verifyObjectAgainstSchemaModel (.obj input) with
  | .error e => .error e
  | .ok _ =>
    let uriFromSchema := getUriForSchema input
    if getField input "$id" == some (.str uriFromSchema.uri) then .ok ()
    else .error (.schemaIdMismatch uriFromSchema.uri (getField input "$id"))

/-- Mirrors `verifyDataStructure` of `SchemaAccounts.ts`. -/
def verifyDataStructure (input : JsonValue) : Except SchemaError Unit :=
  verifyObjectAgainstSchemaModel input

/-- Mirrors `isISchema` of `SchemaAccounts.ts`: runs `verifyDataStructure`
inside a try/catch and reports validity as a boolean. -/
def isISchema (input : JsonValue) : Bool :=
  match verifyDataStructure input with
  | .ok _ => true
  | .error _ => false

/-- JavaScript property assignment `obj[k] = v`: overwrites in place when the
key exists, appends otherwise. -/
def setKey (es : List (String × JsonValue)) (k : String) (v : JsonValue) :
    List (String × JsonValue) :=
  if es.any (fun e => e.1 == k) then
    es.map fun e => if e.1 == k then (k, v) else e
  else es ++ [(k, v)]

structure ISchemaAccountsDetails where
  schema : List (String × JsonValue)
  digest : String
  creatorUri : String
  deriving DecidableEq

/-- The `uriSchema` of `buildFromProperties`: the input without `$id`, with
`additionalProperties := false` and `$schema := SchemaModelV1.$id` forced. -/
def uriSchemaOf (schema : List (String × JsonValue)) : List (String × JsonValue) :=
  setKey (setKey (removeId schema) "additionalProperties" (.bool false))
    "$schema" (.str SchemaModelV1Id)

/-- The `schemaType` of `buildFromProperties`: the content together with the
`$id` derived from it (`{ $id: uri, ...uriSchema }`). -/
def schemaTypeOf (schema : List (String × JsonValue)) : List (String × JsonValue) :=
  ("$id", .str (getUriForSchema (uriSchemaOf schema)).uri) :: uriSchemaOf schema

/-- Mirrors `buildFromProperties` of `SchemaAccounts.ts`: strips `$id`, forces
`additionalProperties := false` and `$schema := SchemaModelV1.$id`, computes
the URI and digest, assembles the record with its `$id`, derives the creator
DID, and verifies the result before returning it (a verification failure
propagates as the thrown error). -/
def buildFromProperties (schema : List (String × JsonValue)) (creatorAddress : String) :
    Except SchemaError ISchemaAccountsDetails :=
  match verifySchemaStructure (schemaTypeOf schema) with
  | .ok _ => .ok ⟨schemaTypeOf schema, (getUriForSchema (uriSchemaOf schema)).digest,
      "did:cord:3" ++ creatorAddress⟩
  | .error e => .error e

/-- The string value of a record's `$id` field (`schema.$id` in the source). -/
def schemaIdString (schema : List (String × JsonValue)) : String :=
  match getField schema "$id" with
  | some (.str s) => s
  | _ => ""

/-- Ledger state visible to the schema-accounts pallet: the identifiers of the
anchored schemas (the Ledger Gateway's existence query is modelled as a lookup
in this state). -/
structure SchemaLedger where
  schemas : List String
  deriving DecidableEq

/-- Mirrors `isSchemaStored` of `SchemaAccounts.chain.ts`: queries the ledger
for the schema's identifier. -/
def isSchemaStored (ledger : SchemaLedger) (schema : List (String × JsonValue)) : Bool :=
  ledger.schemas.contains (uriToIdentifier (schemaIdString schema))

/-- A transaction submitted to the schema-accounts pallet. -/
inductive SchemaTx where
  | create (encodedSchema : String)
  deriving DecidableEq

/-- The dispatch error kind (`SDKErrors.CordDispatchError`). -/
inductive SchemaDispatchError where
  | dispatchFailed
  deriving DecidableEq

/-- Mirrors `dispatchToChain` of `SchemaAccounts.chain.ts`: returns the
existing `$id` without submitting anything when the schema is already
anchored, and otherwise submits `api.tx.schemaAccounts.create` with the
CBOR-encoded schema.  The returned list holds the submitted transactions;
gateway submission itself is modelled as succeeding. -/
def dispatchToChain (ledger : SchemaLedger) (schema : List (String × JsonValue)) :
    List SchemaTx × Except SchemaDispatchError String :=
  if isSchemaStored ledger schema then
    ([], .ok (schemaIdString schema))
  else
    ([.create (encodeCborSchema schema)], .ok (schemaIdString schema))

/-- Modelled from the spec: splits an entry URI
`entry:cord:<identifier>:<digest>` into its identifier and digest segments
(external `uriToEntryIdAndDigest` helper of `@cord.network/identifier`). -/
def uriToEntryIdAndDigest (uri : String) : String × String :=
  let parts := splitOnList [':'] uri.data
  (String.mk (parts.getD 2 []), String.mk (parts.getD 3 []))

/-- The registry-entry details handed to the dispatch functions
(`IRegistryEntry`): the fields the lifecycle core reads. -/
structure IRegistryEntry where
  uri : String
  creatorUri : String
  digest : String
  blob : Option String
  authorizationUri : String
  registryUri : String
  deriving DecidableEq

/-- Lifecycle precondition error kinds surfaced by the entry dispatch
functions.  The source raises `SDKErrors.CordDispatchError` with a
"does not exists" / "already exists" message; the spec's §7 names these error
kinds `NotFoundError` and `AlreadyExistsError` ("Error kinds (not exception
class names)"). -/
inductive EntryError where
  | notFound (uri : String)
  | alreadyExists (uri : String)
  deriving DecidableEq

/-- A transaction submitted to the entries pallet (`api.tx.entries.*`). -/
inductive EntriesTx where
  | create (registryEntryId authorizationId digest : String) (blob : Option String)
  | update (registryEntryId authorizationId digest : String) (blob : Option String)
  | revoke (registryEntryId authorizationId : String)
  | reinstate (registryEntryId authorizationId : String)
  | updateOwnership (registryEntryId authorizationId newOwner newOwnerAuthorizationId : String)
  deriving DecidableEq

/-- Ledger state visible to the entries pallet: anchored entry identifiers
with their revoked flags. -/
structure EntriesLedger where
  registryEntries : List (String × Bool)
  deriving DecidableEq

/-- Mirrors `isRegistryEntryStored` of `Entries.chain.ts`: the Ledger
Gateway's existence query for an entry identifier. -/
def isRegistryEntryStored (ledger : EntriesLedger) (registryEntryId : String) : Bool :=
  (ledger.registryEntries.find? fun e => e.1 == registryEntryId).isSome

/-- Mirrors `dispatchCreateEntryToChain` of `Entries.chain.ts`: aborts with
the already-exists error when the identifier is anchored, and otherwise
submits the `(id, authorizationId, digest, blob)` create payload.  The first
component lists the transactions submitted to the gateway. -/
def dispatchCreateEntryToChain (ledger : EntriesLedger) (registryEntryDetails : IRegistryEntry) :
    List EntriesTx × Except EntryError String :=
  let registryEntryObj := uriToEntryIdAndDigest registryEntryDetails.uri
  let registryEntryId := registryEntryObj.1
  let authorizationId := uriToIdentifier registryEntryDetails.authorizationUri
  if isRegistryEntryStored ledger registryEntryId then
    ([], .error (.alreadyExists registryEntryDetails.uri))
  else
    ([.create registryEntryId authorizationId registryEntryDetails.digest
       registryEntryDetails.blob], .ok registryEntryDetails.uri)

/-- Mirrors `dispatchUpdateEntryToChain` of `Entries.chain.ts`: aborts with
the not-found error when the entry is absent, and otherwise submits the
update payload. -/
def dispatchUpdateEntryToChain (ledger : EntriesLedger) (registryEntryDetails : IRegistryEntry) :
    List EntriesTx × Except EntryError String :=
  let registryEntryObj := uriToEntryIdAndDigest registryEntryDetails.uri
  let registryEntryId := registryEntryObj.1
  let authorizationId := uriToIdentifier registryEntryDetails.authorizationUri
  if isRegistryEntryStored ledger registryEntryId then
    ([.update registryEntryId authorizationId registryEntryDetails.digest
       registryEntryDetails.blob], .ok registryEntryDetails.uri)
  else
    ([], .error (.notFound registryEntryDetails.uri))

/-- Mirrors `dispatchRevokeEntryToChain` of `Entries.chain.ts`. -/
def dispatchRevokeEntryToChain (ledger : EntriesLedger)
    (registryEntryUri authorizationUri : String) :
    List EntriesTx × Except EntryError String :=
  let registryEntryObj := uriToEntryIdAndDigest registryEntryUri
  let registryEntryId := registryEntryObj.1
  let authorizationId := uriToIdentifier authorizationUri
  if isRegistryEntryStored ledger registryEntryId then
    ([.revoke registryEntryId authorizationId], .ok registryEntryUri)
  else
    ([], .error (.notFound registryEntryUri))

/-- Mirrors `dispatchReinstateEntryToChain` of `Entries.chain.ts`: the only
local precondition is that the entry exists — the revoked flag is not
consulted. -/
def dispatchReinstateEntryToChain (ledger : EntriesLedger)
    (registryEntryUri authorizationUri : String) :
    List EntriesTx × Except EntryError String :=
  let registryEntryObj := uriToEntryIdAndDigest registryEntryUri
  let registryEntryId := registryEntryObj.1
  let authorizationId := uriToIdentifier authorizationUri
  if isRegistryEntryStored ledger registryEntryId then
    ([.reinstate registryEntryId authorizationId], .ok registryEntryUri)
  else
    ([], .error (.notFound registryEntryUri))

/-- Mirrors `dispatchUpdateOwnershipToChain` of `Entries.chain.ts`. -/
def dispatchUpdateOwnershipToChain (ledger : EntriesLedger)
    (registryEntryUri authorizationUri newOwnerAccount newOwnerAuthorizationUri : String) :
    List EntriesTx × Except EntryError String :=
  let registryEntryObj := uriToEntryIdAndDigest registryEntryUri
  let registryEntryId := registryEntryObj.1
  let authorizationId := uriToIdentifier authorizationUri
  let newOwnerAuthorizationId := uriToIdentifier newOwnerAuthorizationUri
  if isRegistryEntryStored ledger registryEntryId then
    ([.updateOwnership registryEntryId authorizationId newOwnerAccount
       newOwnerAuthorizationId], .ok registryEntryUri)
  else
    ([], .error (.notFound registryEntryUri))

/-- Modelled from the spec: the ledger's effect of an accepted entries
transaction, per the §4.5 transition table (Create anchors with the revoked
flag false, Revoke sets it true, Reinstate sets it false "regardless of prior
flag", Update and TransferOwnership leave the existence/revocation axis
unchanged). -/
def applyEntriesTx (ledger : EntriesLedger) : EntriesTx → EntriesLedger
  | .create registryEntryId _ _ _ => ⟨(registryEntryId, false) :: ledger.registryEntries⟩
  | .update _ _ _ _ => ledger
  | .revoke registryEntryId _ =>
    ⟨ledger.registryEntries.map fun e =>
      if e.1 == registryEntryId then (e.1, true) else e⟩
  | .reinstate registryEntryId _ =>
    ⟨ledger.registryEntries.map fun e =>
      if e.1 == registryEntryId then (e.1, false) else e⟩
  | .updateOwnership _ _ _ _ => ledger

/-- Modelled from the spec: the fixed-width `AccountId` SCALE codec applied to
an address (external `api.createType('AccountId', addr).toU8a()`), modelled as
an injective symbol encoding of the address. -/
def scaleAccountId (address : String) : List Nat :=
  address.data.length :: strSyms address

/-- Mirrors `getUriForAuthorization` of `packages/namespace/src/Namespace.ts`:
the blake2 digest of the concatenated encodings of the namespace identifier,
the delegate address and the creator (delegator) address, formatted with the
namespace-authorization ident and tag. -/
def getUriForAuthorization (namespaceUri delegateAddress creatorAddress : String) : String :=
  let scaleEncodedNamespaceId := scaleBytesOfStr (uriToIdentifier namespaceUri)
  let scaleEncodedAuthDelegate := scaleAccountId delegateAddress
  let scaleEncodedAuthCreator := scaleAccountId creatorAddress
  let authDigest := blake2AsHex
    (scaleEncodedNamespaceId ++ scaleEncodedAuthDelegate ++ scaleEncodedAuthCreator)
  hashToUri authDigest NAMESPACEAUTH_IDENT NAMESPACEAUTH_PFX

/-- The symbol sequence hashed by `getUriForAuthorization` (the argument of
`blake2AsHex` in the source). -/
def authHashInput (namespaceUri delegateAddress creatorAddress : String) : List Nat :=
  scaleBytesOfStr (uriToIdentifier namespaceUri) ++ scaleAccountId delegateAddress ++
    scaleAccountId creatorAddress

instance {e a : Type} [DecidableEq e] [DecidableEq a] : DecidableEq (Except e a) :=
  fun x y =>
    match x, y with
    | .ok u, .ok v => decidable_of_iff (u = v) (by simp)
    | .error u, .error v => decidable_of_iff (u = v) (by simp)
    | .ok _, .error _ => isFalse (by simp)
    | .error _, .ok _ => isFalse (by simp)

theorem removeId_cons_id (x : JsonValue) (l : List (String × JsonValue)) :
    removeId (("$id", x) :: l) = removeId l := by
  simp [removeId]

theorem removeId_eq_self {l : List (String × JsonValue)}
    (h : ∀ e ∈ l, e.1 ≠ "$id") : removeId l = l := by
  rw [removeId, List.filter_eq_self]
  intro a ha
  simpa using h a ha

theorem mem_setKey {l : List (String × JsonValue)} {k : String} {v : JsonValue}
    {e : String × JsonValue} (he : e ∈ setKey l k v) : e ∈ l ∨ e = (k, v) := by
  rw [setKey] at he
  split at he
  · obtain ⟨a, ha, hae⟩ := List.mem_map.mp he
    by_cases hk : (a.1 == k) = true
    · right
      rw [if_pos hk] at hae
      exact hae.symm
    · left
      rw [if_neg hk] at hae
      exact hae ▸ ha
  · rcases List.mem_append.mp he with h | h
    · exact Or.inl h
    · right
      simpa using h

theorem uriSchemaOf_no_id (s : List (String × JsonValue)) :
    ∀ e ∈ uriSchemaOf s, e.1 ≠ "$id" := by
  intro e he
  rcases mem_setKey he with h | h
  · rcases mem_setKey h with h2 | h2
    · have := (List.mem_filter.mp h2).2
      simpa using this
    · rw [h2]
      decide
  · rw [h]
    decide

theorem removeId_uriSchemaOf (s : List (String × JsonValue)) :
    removeId (uriSchemaOf s) = uriSchemaOf s :=
  removeId_eq_self (uriSchemaOf_no_id s)

theorem encodeCborSchema_schemaTypeOf (s : List (String × JsonValue)) :
    encodeCborSchema (schemaTypeOf s) = encodeCborSchema (uriSchemaOf s) := by
  rw [encodeCborSchema, encodeCborSchema, schemaTypeOf, removeId_cons_id,
    removeId_uriSchemaOf]

theorem getUriForSchema_schemaTypeOf (s : List (String × JsonValue)) :
    getUriForSchema (schemaTypeOf s) = getUriForSchema (uriSchemaOf s) := by
  rw [getUriForSchema, getUriForSchema, encodeCborSchema_schemaTypeOf]

theorem verify_schemaTypeOf (s : List (String × JsonValue)) :
    verifySchemaStructure (schemaTypeOf s) =
      if conformsToSchemaModel (.obj (schemaTypeOf s)) then .ok ()
      else .error .objectUnverifiable := by
  rw [verifySchemaStructure, verifyObjectAgainstSchemaModel]
  by_cases h : conformsToSchemaModel (.obj (schemaTypeOf s)) = true
  · rw [if_pos h]
    dsimp only
    rw [getUriForSchema_schemaTypeOf]
    have hid : getField (schemaTypeOf s) "$id"
        = some (.str (getUriForSchema (uriSchemaOf s)).uri) := by
      rw [schemaTypeOf, getField]
      simp [List.find?]
    rw [hid]
    simp
  · rw [if_neg h]

theorem build_ok_iff (s : List (String × JsonValue)) (a : String) :
    buildFromProperties s a =
        .ok ⟨schemaTypeOf s, (getUriForSchema (uriSchemaOf s)).digest, "did:cord:3" ++ a⟩ ↔
      conformsToSchemaModel (.obj (schemaTypeOf s)) = true := by
  rw [buildFromProperties, verify_schemaTypeOf]
  by_cases h : conformsToSchemaModel (.obj (schemaTypeOf s)) = true
  · simp [h]
  · simp [h]

/-- Field access on an arbitrary JSON value (`undefined` for non-objects). -/
def getJsonField (v : JsonValue) (k : String) : Option JsonValue :=
  match v with
  | .obj es => getField es k
  | _ => none

/-- The raw binary canonical form of a record: the CBOR encoding of its
sorted, identifier-stripped content, before any transport encoding. -/
def rawCanonicalBytes (r : List (String × JsonValue)) : List Nat :=
  cborEncode (sortObj (.obj (removeId r)))

theorem stored_apply_flag (l : List (String × Bool)) (id target : String) (b : Bool) :
    ((l.map fun e => if e.1 == id then (e.1, b) else e).find? fun e => e.1 == target).isSome
      = (l.find? fun e => e.1 == target).isSome := by
  induction l with
  | nil => rfl
  | cons e t ih =>
    by_cases h1 : (e.1 == id) = true <;> by_cases h2 : (e.1 == target) = true <;>
      simp [List.find?, h1, h2] at ih ⊢ <;> exact ih

theorem isStored_apply_reinstate (ledger : EntriesLedger) (id authId target : String) :
    isRegistryEntryStored (applyEntriesTx ledger (.reinstate id authId)) target
      = isRegistryEntryStored ledger target := by
  obtain ⟨l⟩ := ledger
  rw [isRegistryEntryStored, isRegistryEntryStored, applyEntriesTx]
  exact stored_apply_flag l id target false

/-- C4: Guarded transitions abort on absent entry: Update, Revoke, Reinstate
and TransferOwnership each first query the ledger for the entry's existence,
and when the entry is not anchored they surface the not-found error kind and
submit no transaction to the ledger. -/
theorem C4_guarded_transitions_abort_on_absent
    (ledger : EntriesLedger) (details : IRegistryEntry)
    (uri authUri newOwner newOwnerAuth : String)
    (hDetails : isRegistryEntryStored ledger (uriToEntryIdAndDigest details.uri).1 = false)
    (hUri : isRegistryEntryStored ledger (uriToEntryIdAndDigest uri).1 = false) :
    dispatchUpdateEntryToChain ledger details = ([], .error (.notFound details.uri)) ∧
    dispatchRevokeEntryToChain ledger uri authUri = ([], .error (.notFound uri)) ∧
    dispatchReinstateEntryToChain ledger uri authUri = ([], .error (.notFound uri)) ∧
    dispatchUpdateOwnershipToChain ledger uri authUri newOwner newOwnerAuth
      = ([], .error (.notFound uri)) := by
  refine ⟨?_, ?_, ?_, ?_⟩ <;>
    simp [dispatchUpdateEntryToChain, dispatchRevokeEntryToChain,
      dispatchReinstateEntryToChain, dispatchUpdateOwnershipToChain, hDetails, hUri]

theorem C4_guarded_transitions_abort_on_absent_witness :
    dispatchUpdateEntryToChain ⟨[("e2", false)]⟩
        ⟨"entry:cord:e1:d1", "did:cord:3c", "0xd", none, "registryauth:cord:a1", "registry:cord:r1"⟩
      = ([], .error (.notFound "entry:cord:e1:d1")) ∧
    dispatchRevokeEntryToChain ⟨[("e2", false)]⟩ "entry:cord:e1:d1" "registryauth:cord:a1"
      = ([], .error (.notFound "entry:cord:e1:d1")) ∧
    dispatchReinstateEntryToChain ⟨[("e2", false)]⟩ "entry:cord:e1:d1" "registryauth:cord:a1"
      = ([], .error (.notFound "entry:cord:e1:d1")) ∧
    dispatchUpdateOwnershipToChain ⟨[("e2", false)]⟩ "entry:cord:e1:d1" "registryauth:cord:a1"
        "newOwner" "registryauth:cord:a2"
      = ([], .error (.notFound "entry:cord:e1:d1")) :=
  C4_guarded_transitions_abort_on_absent ⟨[("e2", false)]⟩
    ⟨"entry:cord:e1:d1", "did:cord:3c", "0xd", none, "registryauth:cord:a1", "registry:cord:r1"⟩
    "entry:cord:e1:d1" "registryauth:cord:a1" "newOwner" "registryauth:cord:a2"
    (by decide) (by decide)

/-- C5: Create precondition: `dispatchCreateEntryToChain` aborts with the
already-exists error kind and submits nothing when the identifier is already
anchored, and only when the identifier is absent does it submit the
`(id, authorizationId, digest, blob)` create payload. -/
theorem C5_create_precondition (ledger : EntriesLedger) (details : IRegistryEntry) :
    (isRegistryEntryStored ledger (uriToEntryIdAndDigest details.uri).1 = true →
      dispatchCreateEntryToChain ledger details
        = ([], .error (.alreadyExists details.uri))) ∧
    (isRegistryEntryStored ledger (uriToEntryIdAndDigest details.uri).1 = false →
      dispatchCreateEntryToChain ledger details
        = ([.create (uriToEntryIdAndDigest details.uri).1
             (uriToIdentifier details.authorizationUri) details.digest details.blob],
           .ok details.uri)) := by
  constructor <;> intro h <;> simp [dispatchCreateEntryToChain, h]

theorem C5_create_precondition_witness :
    dispatchCreateEntryToChain ⟨[("e1", false)]⟩
        ⟨"entry:cord:e1:d1", "did:cord:3c", "0xd", none, "registryauth:cord:a1", "registry:cord:r1"⟩
      = ([], .error (.alreadyExists "entry:cord:e1:d1")) ∧
    dispatchCreateEntryToChain ⟨[]⟩
        ⟨"entry:cord:e1:d1", "did:cord:3c", "0xd", none, "registryauth:cord:a1", "registry:cord:r1"⟩
      = ([.create "e1" "a1" "0xd" none], .ok "entry:cord:e1:d1") := by
  constructor
  · exact (C5_create_precondition ⟨[("e1", false)]⟩ _).1 (by decide)
  · have h := (C5_create_precondition ⟨[]⟩
      ⟨"entry:cord:e1:d1", "did:cord:3c", "0xd", none, "registryauth:cord:a1",
        "registry:cord:r1"⟩).2 (by decide)
    rw [h]
    decide

/-- C6: Reinstate idempotence: the only local precondition of
`dispatchReinstateEntryToChain` is existence on the ledger — the revoked flag
is not consulted — so reinstating an already-active entry succeeds with the
same payload, and an immediate second Reinstate (after the ledger applies the
first) succeeds as well. -/
theorem C6_reinstate_idempotent (ledger : EntriesLedger) (uri authUri : String)
    (h : isRegistryEntryStored ledger (uriToEntryIdAndDigest uri).1 = true) :
    dispatchReinstateEntryToChain ledger uri authUri
      = ([.reinstate (uriToEntryIdAndDigest uri).1 (uriToIdentifier authUri)], .ok uri) ∧
    dispatchReinstateEntryToChain
        (applyEntriesTx ledger
          (.reinstate (uriToEntryIdAndDigest uri).1 (uriToIdentifier authUri))) uri authUri
      = ([.reinstate (uriToEntryIdAndDigest uri).1 (uriToIdentifier authUri)], .ok uri) := by
  constructor
  · simp [dispatchReinstateEntryToChain, h]
  · simp [dispatchReinstateEntryToChain, isStored_apply_reinstate, h]

theorem C6_reinstate_idempotent_witness :
    dispatchReinstateEntryToChain ⟨[("e1", false)]⟩ "entry:cord:e1:d1" "registryauth:cord:a1"
      = ([.reinstate "e1" "a1"], .ok "entry:cord:e1:d1") ∧
    dispatchReinstateEntryToChain
        (applyEntriesTx ⟨[("e1", false)]⟩ (.reinstate "e1" "a1"))
        "entry:cord:e1:d1" "registryauth:cord:a1"
      = ([.reinstate "e1" "a1"], .ok "entry:cord:e1:d1") := by
  have h := C6_reinstate_idempotent ⟨[("e1", false)]⟩ "entry:cord:e1:d1"
    "registryauth:cord:a1" (by decide)
  constructor
  · rw [h.1]; decide
  · have h2 := h.2
    simpa using h2

/-- C9: Schema anchoring is idempotent, unlike entry creation: for a schema
already stored on the ledger, `dispatchToChain` returns the schema's existing
`$id` without submitting any transaction and without raising any error. -/
theorem C9_schema_anchor_idempotent (ledger : SchemaLedger)
    (schema : List (String × JsonValue))
    (h : isSchemaStored ledger schema = true) :
    dispatchToChain ledger schema = ([], .ok (schemaIdString schema)) := by
  simp [dispatchToChain, h]

theorem C9_schema_anchor_idempotent_witness :
    dispatchToChain ⟨["mAB"]⟩ [("$id", .str "schema:cord:mAB"), ("title", .str "T")]
      = ([], .ok "schema:cord:mAB") := by
  have h := C9_schema_anchor_idempotent ⟨["mAB"]⟩
    [("$id", .str "schema:cord:mAB"), ("title", .str "T")] (by decide)
  rw [h]
  decide

/-- C10: Validity query is total: `isISchema` is a total boolean function over
all JSON values (including non-objects), returning `false` exactly when
`verifyDataStructure` raises and `true` exactly when it succeeds.  Totality is
inherent: `isISchema` is a Lean function defined for every `JsonValue`. -/
theorem C10_isISchema_total (input : JsonValue) :
    (isISchema input = true ↔ verifyDataStructure input = .ok ()) ∧
    (isISchema input = false ↔ ∃ e, verifyDataStructure input = .error e) := by
  rw [isISchema]
  rcases hv : verifyDataStructure input with e | u
  · simp [hv]
  · simp [hv]

theorem C10_isISchema_total_witness :
    (isISchema (.str "not a schema") = false ↔
      ∃ e, verifyDataStructure (.str "not a schema") = .error e) ∧
    isISchema (.str "not a schema") = false :=
  ⟨(C10_isISchema_total (.str "not a schema")).2, by decide⟩

theorem getField_of_hasField {es : List (String × JsonValue)} {k : String}
    (h : hasField es k = true) : ∃ x, getField es k = some x := by
  rw [hasField] at h
  rcases hf : es.find? (fun e => e.1 == k) with - | e
  · rw [hf] at h
    simp at h
  · exact ⟨e.2, by rw [getField, hf]; rfl⟩

/-- C7: Meta-schema version gate: a record whose `$schema` field is not the
recognized meta-schema identifier `http://cord.network/draft-01/schema#`
cannot validate against `SchemaModel`, and `verifyObjectAgainstSchema` raises
the structural validation error for it. -/
theorem C7_meta_schema_version_gate (v : JsonValue)
    (h : getJsonField v "$schema" ≠ some (.str SchemaModelV1Id)) :
    conformsToSchemaModel v = false ∧
    verifyObjectAgainstSchemaModel v = .error .objectUnverifiable := by
  have hc : conformsToSchemaModel v = false := by
    cases hcv : conformsToSchemaModel v
    · rfl
    · exfalso
      rw [conformsToSchemaModel, Bool.and_eq_true] at hcv
      obtain ⟨hconst, hv1⟩ := hcv
      cases v with
      | obj es =>
        rw [conformsToV1] at hv1
        simp only [Bool.and_eq_true, List.all_eq_true] at hv1
        have hhas : hasField es "$schema" = true :=
          hv1.1.1.1.1.1.1.1.1.1.1 "$schema" (by simp)
        obtain ⟨x, hx⟩ := getField_of_hasField hhas
        rw [conformsToSchemaModel.schemaConstOk, fieldOk, hx] at hconst
        have hxval : x = .str SchemaModelV1Id := by simpa using hconst
        exact h (by rw [getJsonField, hx, hxval])
      | str s => simp [conformsToV1] at hv1
      | num n => simp [conformsToV1] at hv1
      | bool b => simp [conformsToV1] at hv1
      | null => simp [conformsToV1] at hv1
      | arr xs => simp [conformsToV1] at hv1
  refine ⟨hc, ?_⟩
  rw [verifyObjectAgainstSchemaModel, hc]
  rfl

theorem C7_meta_schema_version_gate_witness :
    conformsToSchemaModel (.obj [("$schema", .str "http://unknown/version#"),
      ("title", .str "T")]) = false ∧
    verifyObjectAgainstSchemaModel (.obj [("$schema", .str "http://unknown/version#"),
      ("title", .str "T")]) = .error .objectUnverifiable :=
  C7_meta_schema_version_gate
    (.obj [("$schema", .str "http://unknown/version#"), ("title", .str "T")])
    (by decide)

theorem lenSyms_cancel {s s' : String} {r r' : List Nat}
    (h : (s.data.length :: strSyms s) ++ r = (s'.data.length :: strSyms s') ++ r') :
    s = s' ∧ r = r' := by
  simp only [List.cons_append, List.cons.injEq] at h
  obtain ⟨hlen, happ⟩ := h
  have hl : (strSyms s).length = (strSyms s').length := by simp [strSyms, hlen]
  obtain ⟨h1, h2⟩ := List.append_inj happ hl
  exact ⟨strSyms_injective h1, h2⟩

/-- C8: Authorization URI derivation: `getUriForAuthorization` returns
`hashToUri` of the blake2 digest of the concatenated encodings of the
namespace identifier, delegate address and delegator (creator) address,
formatted with ident 13101 and the `namespaceauth:cord:` tag; it is a pure
function of the three inputs, and the hashed input bytes determine — hence
changing any of scope, delegate or delegator changes — the namespace
identifier, the delegate and the delegator. -/
theorem C8_authorization_uri_derivation (namespaceUri delegateAddress creatorAddress : String) :
    (getUriForAuthorization namespaceUri delegateAddress creatorAddress
      = hashToUri (blake2AsHex (authHashInput namespaceUri delegateAddress creatorAddress))
          13101 "namespaceauth:cord:") ∧
    NAMESPACEAUTH_IDENT = 13101 ∧ NAMESPACEAUTH_PFX = "namespaceauth:cord:" ∧
    (∀ ns' d' c',
      authHashInput ns' d' c' = authHashInput namespaceUri delegateAddress creatorAddress →
      uriToIdentifier ns' = uriToIdentifier namespaceUri ∧
        d' = delegateAddress ∧ c' = creatorAddress) := by
  refine ⟨rfl, rfl, rfl, ?_⟩
  intro ns' d' c' h
  rw [authHashInput, authHashInput, List.append_assoc, List.append_assoc] at h
  obtain ⟨h1, h2⟩ := lenSyms_cancel (by simpa [scaleBytesOfStr] using h)
  obtain ⟨h3, h4⟩ := lenSyms_cancel (by simpa [scaleAccountId] using h2)
  have h5 : c' = creatorAddress := by
    simp only [scaleAccountId, List.cons.injEq] at h4
    exact strSyms_injective h4.2
  exact ⟨h1, h3, h5⟩

theorem C8_authorization_uri_derivation_witness :
    getUriForAuthorization "namespace:cord:n1" "delegate1" "creator1"
      = hashToUri (blake2AsHex (authHashInput "namespace:cord:n1" "delegate1" "creator1"))
          13101 "namespaceauth:cord:" ∧
    (uriToIdentifier "namespace:cord:n1" = uriToIdentifier "namespace:cord:n1" ∧
      "delegate1" = "delegate1" ∧ "creator1" = "creator1") :=
  ⟨(C8_authorization_uri_derivation "namespace:cord:n1" "delegate1" "creator1").1,
   (C8_authorization_uri_derivation "namespace:cord:n1" "delegate1" "creator1").2.2.2
     "namespace:cord:n1" "delegate1" "creator1" rfl⟩

theorem map_sortPair_filter_id (l : List (String × JsonValue)) :
    ((l.filter fun e => !(e.1 == "$id")).map fun e => (e.1, sortObj e.2))
      = ((l.map fun e => (e.1, sortObj e.2)).filter fun e => !(e.1 == "$id")) := by
  induction l with
  | nil => rfl
  | cons e t ih =>
    by_cases h : (e.1 == "$id") = true <;> simp [List.filter_cons, h, ih]

/-- The canonical form of an identifier-stripped record is the key-filtered
canonical form of the full record (for duplicate-free keys). -/
theorem sortObj_obj_removeId (l : List (String × JsonValue))
    (hn : (l.map Prod.fst).Nodup) :
    sortObj (.obj (removeId l))
      = .obj ((List.insertionSort entryLe (sortObj.sortObjEntries l)).filter
          fun e => !(e.1 == "$id")) := by
  rw [sortObj, JsonValue.obj.injEq, removeId, sortObjEntries_eq_map,
    map_sortPair_filter_id, sortObjEntries_eq_map]
  exact insertionSort_filter _ (by rw [keys_map_sortPair]; exact hn)

/-- C2: Canonicalization invariance: permuting a well-formed record's object
keys at any nesting level leaves `encodeCborSchema` (and hence the derived
digest and URI) unchanged, and so does any change confined to the `$id` field
(present, absent or different). -/
theorem C2_canonicalization_invariance (r r' : List (String × JsonValue)) :
    (wfV (.obj r) = true → JEq (.obj r) (.obj r') →
      encodeCborSchema r = encodeCborSchema r' ∧
      getHashForSchema r = getHashForSchema r' ∧
      getUriForSchema r = getUriForSchema r') ∧
    (removeId r = removeId r' →
      encodeCborSchema r = encodeCborSchema r' ∧
      getHashForSchema r = getHashForSchema r' ∧
      getUriForSchema r = getUriForSchema r') := by
  have main : sortObj (.obj (removeId r)) = sortObj (.obj (removeId r')) →
      encodeCborSchema r = encodeCborSchema r' ∧
      getHashForSchema r = getHashForSchema r' ∧
      getUriForSchema r = getUriForSchema r' := by
    intro h
    have henc : encodeCborSchema r = encodeCborSchema r' := by
      rw [encodeCborSchema, encodeCborSchema, h]
    exact ⟨henc, by rw [getHashForSchema, getHashForSchema, henc],
      by rw [getUriForSchema, getUriForSchema, henc]⟩
  constructor
  · intro hwf hjeq
    apply main
    have hsort : sortObj (.obj r) = sortObj (.obj r') := jeq_sortObj hjeq hwf
    have hwf' : wfV (.obj r') = true := jeq_wf hjeq hwf
    have hn : (r.map Prod.fst).Nodup := wfEntries_nodup_keys (by simpa [wfV] using hwf)
    have hn' : (r'.map Prod.fst).Nodup := wfEntries_nodup_keys (by simpa [wfV] using hwf')
    rw [sortObj_obj_removeId r hn, sortObj_obj_removeId r' hn']
    simp only [sortObj, JsonValue.obj.injEq] at hsort
    rw [hsort]
  · intro hrem
    apply main
    rw [sortObj, sortObj, hrem]

theorem C2_canonicalization_invariance_witness :
    wfV (.obj [("b", .num 1), ("a", .str "x")]) = true ∧
    JEq (.obj [("b", .num 1), ("a", .str "x")]) (.obj [("a", .str "x"), ("b", .num 1)]) ∧
    encodeCborSchema [("b", .num 1), ("a", .str "x")]
      = encodeCborSchema [("a", .str "x"), ("b", .num 1)] ∧
    removeId (("$id", .str "schema:cord:mZZ") :: [("b", .num 1), ("a", .str "x")])
      = removeId [("b", .num 1), ("a", .str "x")] ∧
    encodeCborSchema (("$id", .str "schema:cord:mZZ") :: [("b", .num 1), ("a", .str "x")])
      = encodeCborSchema [("b", .num 1), ("a", .str "x")] := by
  have hjeq : JEq (.obj [("b", .num 1), ("a", .str "x")])
      (.obj [("a", .str "x"), ("b", .num 1)]) :=
    .objSwap ("b", .num 1) ("a", .str "x") []
  refine ⟨by decide, hjeq, ?_, by decide, ?_⟩
  · exact ((C2_canonicalization_invariance _ _).1 (by decide) hjeq).1
  · exact ((C2_canonicalization_invariance
      (("$id", .str "schema:cord:mZZ") :: [("b", .num 1), ("a", .str "x")])
      [("b", .num 1), ("a", .str "x")]).2 (by decide)).1

theorem cborEncode_head (v : JsonValue) : ∃ t rest, cborEncode v = t :: rest ∧ t ≤ 5 := by
  cases v with
  | str s => exact ⟨3, _, rfl, by omega⟩
  | num n => exact ⟨2, _, rfl, by omega⟩
  | bool b => exact ⟨1, _, rfl, by omega⟩
  | null => exact ⟨0, _, rfl, by omega⟩
  | arr xs => exact ⟨4, _, rfl, by omega⟩
  | obj es => exact ⟨5, _, rfl, by omega⟩

/-- The transport string's symbol view never coincides with the raw binary it
encodes: the printable rendering re-codes every symbol. -/
theorem strSyms_base64_ne {bs : List Nat} (t : Nat) (rest : List Nat)
    (hbs : bs = t :: rest) (ht : t ≤ 5) : strSyms (base64Encode bs) ≠ bs := by
  subst hbs
  intro h
  rw [base64Encode, symsToStr] at h
  have h' : ((encSyms (t :: rest)).map alnumChar).map Char.toNat = t :: rest := by
    simpa [strSyms] using h
  rw [encSyms, List.map_map] at h'
  interval_cases t
  · rw [show natDigits 0 = [] from rfl] at h'
    simp only [List.nil_append, List.map_cons, List.cons.injEq, Function.comp] at h'
    exact absurd h'.1 (by decide)
  · rw [show natDigits 1 = [1] from rfl] at h'
    simp only [List.cons_append, List.map_cons, List.cons.injEq, Function.comp] at h'
    exact absurd h'.1 (by decide)
  · rw [show natDigits 2 = [2] from rfl] at h'
    simp only [List.cons_append, List.map_cons, List.cons.injEq, Function.comp] at h'
    exact absurd h'.1 (by decide)
  · rw [show natDigits 3 = [3] from rfl] at h'
    simp only [List.cons_append, List.map_cons, List.cons.injEq, Function.comp] at h'
    exact absurd h'.1 (by decide)
  · rw [show natDigits 4 = [4] from rfl] at h'
    simp only [List.cons_append, List.map_cons, List.cons.injEq, Function.comp] at h'
    exact absurd h'.1 (by decide)
  · rw [show natDigits 5 = [5] from rfl] at h'
    simp only [List.cons_append, List.map_cons, List.cons.injEq, Function.comp] at h'
    exact absurd h'.1 (by decide)

/-- C3 (amended): what `getHashForSchema` and `getUriForSchema` actually hash:
the digest is the hash of the base64 transport string of the canonical CBOR
form, the URI digest is the blake2 hash of the SCALE-encoded transport
string, and the hashed transport input always differs from the raw binary
canonical form — the raw bytes are never what is hashed. -/
theorem C3_hashes_transport_encoding (r : List (String × JsonValue)) :
    getHashForSchema r = hashStr (encodeCborSchema r) ∧
    (getUriForSchema r).digest = hashStr (encodeCborSchema r) ∧
    (getUriForSchema r).uri
      = hashToUri (blake2AsHex (scaleBytesOfStr (encodeCborSchema r)))
          SCHEMA_ACCOUNTS_IDENT SCHEMA_PFX ∧
    strSyms (encodeCborSchema r) ≠ rawCanonicalBytes r := by
  refine ⟨rfl, rfl, rfl, ?_⟩
  obtain ⟨t, rest, hbs, ht⟩ := cborEncode_head (sortObj (.obj (removeId r)))
  rw [encodeCborSchema, rawCanonicalBytes]
  exact strSyms_base64_ne t rest hbs ht

/-- C3 (counterexample): at a concrete record, the digest computed by
`getHashForSchema` is not the hash of the raw binary canonical form, and the
identifier digest of `getUriForSchema` is not derived from the raw binary
canonical form either — both hash transport-encoded data. -/
theorem C3_counterexample_raw_binary_not_hashed :
    getHashForSchema [("title", .str "T")]
        ≠ blake2AsHex (rawCanonicalBytes [("title", .str "T")]) ∧
    (getUriForSchema [("title", .str "T")]).uri
        ≠ hashToUri (blake2AsHex (rawCanonicalBytes [("title", .str "T")]))
            SCHEMA_ACCOUNTS_IDENT SCHEMA_PFX := by
  constructor
  · decide
  · decide

theorem verify_of_conforms {r : List (String × JsonValue)}
    (h : conformsToSchemaModel (.obj r) = true) :
    verifySchemaStructure r =
      if getField r "$id" == some (.str (getUriForSchema r).uri) then .ok ()
      else .error (.schemaIdMismatch (getUriForSchema r).uri (getField r "$id")) := by
  rw [verifySchemaStructure, verifyObjectAgainstSchemaModel, if_pos h]

theorem getField_schemaTypeOf_id (s : List (String × JsonValue)) :
    getField (schemaTypeOf s) "$id"
      = some (.str (getUriForSchema (uriSchemaOf s)).uri) := by
  rw [schemaTypeOf, getField]
  simp [List.find?]

/-- Equal derived URIs force equal canonical content: the URI pipeline —
transport encoding, SCALE bytes, blake2 digest and URI formatting — is
information-preserving. -/
theorem getUriForSchema_inj_content {r r' : List (String × JsonValue)}
    (h : (getUriForSchema r).uri = (getUriForSchema r').uri) :
    sortObj (.obj (removeId r)) = sortObj (.obj (removeId r')) := by
  have h' : hashToUri (blake2AsHex (scaleBytesOfStr (encodeCborSchema r)))
        SCHEMA_ACCOUNTS_IDENT SCHEMA_PFX
      = hashToUri (blake2AsHex (scaleBytesOfStr (encodeCborSchema r')))
        SCHEMA_ACCOUNTS_IDENT SCHEMA_PFX := by
    simpa [getUriForSchema] using h
  have h1 := hashToUri_digest_cancel h'
  have h2 := blake2AsHex_injective h1
  have h3 := scaleBytesOfStr_injective h2
  rw [encodeCborSchema, encodeCborSchema] at h3
  exact cborEncode_injective (base64Encode_injective h3)

/-- C1: Self-certification: for structurally valid records,
`verifySchemaStructure` succeeds exactly when the declared `$id` equals the
URI recomputed from the content, and any mismatch raises the
`SchemaIdMismatchError` kind; every record returned by `buildFromProperties`
passes the check; and altering the content of a validly-built record (to any
content not canonically equal) while keeping its `$id` makes
`verifySchemaStructure` raise that mismatch error. -/
theorem C1_self_certification :
    (∀ r : List (String × JsonValue), conformsToSchemaModel (.obj r) = true →
      (verifySchemaStructure r = .ok () ↔
        getField r "$id" = some (.str (getUriForSchema r).uri))) ∧
    (∀ r : List (String × JsonValue), conformsToSchemaModel (.obj r) = true →
      getField r "$id" ≠ some (.str (getUriForSchema r).uri) →
      verifySchemaStructure r
        = .error (.schemaIdMismatch (getUriForSchema r).uri (getField r "$id"))) ∧
    (∀ (s : List (String × JsonValue)) (a : String) (d : ISchemaAccountsDetails),
      buildFromProperties s a = .ok d → verifySchemaStructure d.schema = .ok ()) ∧
    (∀ (s : List (String × JsonValue)) (a : String) (d : ISchemaAccountsDetails)
        (r' : List (String × JsonValue)),
      buildFromProperties s a = .ok d →
      conformsToSchemaModel (.obj r') = true →
      getField r' "$id" = getField d.schema "$id" →
      ¬ JEq (.obj (removeId r')) (.obj (removeId d.schema)) →
      ∃ u i, verifySchemaStructure r' = .error (.schemaIdMismatch u i)) := by
  have hBuild : ∀ (s : List (String × JsonValue)) (a : String) (d : ISchemaAccountsDetails),
      buildFromProperties s a = .ok d →
      d.schema = schemaTypeOf s ∧ verifySchemaStructure (schemaTypeOf s) = .ok () := by
    intro s a d hb
    rw [buildFromProperties] at hb
    rcases hv : verifySchemaStructure (schemaTypeOf s) with e | u
    · rw [hv] at hb
      exact absurd hb (by simp)
    · rw [hv] at hb
      simp only [Except.ok.injEq] at hb
      rcases u
      subst hb
      exact ⟨rfl, rfl⟩
  refine ⟨?_, ?_, ?_, ?_⟩
  · intro r hconf
    rw [verify_of_conforms hconf]
    by_cases he : getField r "$id" = some (.str (getUriForSchema r).uri)
    · simp [he]
    · have hb : (getField r "$id" == some (JsonValue.str (getUriForSchema r).uri)) = false := by
        simpa [beq_eq_false_iff_ne] using he
      simp [hb, he]
  · intro r hconf hne
    rw [verify_of_conforms hconf]
    have hb : (getField r "$id" == some (JsonValue.str (getUriForSchema r).uri)) = false := by
      simpa [beq_eq_false_iff_ne] using hne
    simp [hb]
  · intro s a d hb
    obtain ⟨hd, hok⟩ := hBuild s a d hb
    rw [hd, hok]
  · intro s a d r' hb hconf' hid hnjeq
    obtain ⟨hd, hok⟩ := hBuild s a d hb
    have hconfS : conformsToSchemaModel (.obj (schemaTypeOf s)) = true := by
      rw [verify_schemaTypeOf] at hok
      by_cases hc : conformsToSchemaModel (.obj (schemaTypeOf s)) = true
      · exact hc
      · rw [if_neg hc] at hok
        exact absurd hok (by simp)
    have hidr' : getField r' "$id" = some (.str (getUriForSchema (uriSchemaOf s)).uri) := by
      rw [hid, hd, getField_schemaTypeOf_id]
    have hne : getField r' "$id" ≠ some (.str (getUriForSchema r').uri) := by
      rw [hidr']
      intro he
      simp only [Option.some.injEq, JsonValue.str.injEq] at he
      apply hnjeq
      rw [hd]
      apply jeq_of_sortObj_eq
      apply getUriForSchema_inj_content
      rw [← he, getUriForSchema_schemaTypeOf]
    have hb' : (getField r' "$id" == some (JsonValue.str (getUriForSchema r').uri)) = false := by
      simpa [beq_eq_false_iff_ne] using hne
    refine ⟨(getUriForSchema r').uri, getField r' "$id", ?_⟩
    rw [verify_of_conforms hconf']
    simp [hb']

/-- Concrete schema used to exercise the self-certification properties; its
`address` property is an object-typed subschema, exercising the
`definitions.object` alternative of the meta-schema. -/
def c1Schema : List (String × JsonValue) :=
  [("title", .str "Test"), ("type", .str "object"),
   ("properties", .obj [("name", .obj [("type", .str "string")]),
     ("address", .obj [("type", .str "object"),
       ("properties", .obj [("street", .obj [("type", .str "string")])])])])]

/-- The same schema with its title altered — different logical content. -/
def c1Altered : List (String × JsonValue) :=
  [("title", .str "Altered"), ("type", .str "object"),
   ("properties", .obj [("name", .obj [("type", .str "string")]),
     ("address", .obj [("type", .str "object"),
       ("properties", .obj [("street", .obj [("type", .str "string")])])])])]

/-- The details `buildFromProperties` produces for `c1Schema`. -/
def c1Details : ISchemaAccountsDetails :=
  ⟨schemaTypeOf c1Schema, (getUriForSchema (uriSchemaOf c1Schema)).digest,
    "did:cord:3" ++ "creator"⟩

/-- The validly-built record with its content altered but its `$id` kept. -/
def c1Tampered : List (String × JsonValue) :=
  ("$id", .str (getUriForSchema (uriSchemaOf c1Schema)).uri) :: uriSchemaOf c1Altered

/-- A structurally valid record whose declared `$id` is not its derived URI. -/
def c1Mismatch : List (String × JsonValue) :=
  ("$id", .str "schema:cord:mAB") :: uriSchemaOf c1Schema

set_option maxRecDepth 20000 in
theorem C1_self_certification_witness :
    buildFromProperties c1Schema "creator" = .ok c1Details ∧
    verifySchemaStructure c1Details.schema = .ok () ∧
    verifySchemaStructure c1Mismatch
      = .error (.schemaIdMismatch (getUriForSchema c1Mismatch).uri
          (getField c1Mismatch "$id")) ∧
    (∃ u i, verifySchemaStructure c1Tampered = .error (.schemaIdMismatch u i)) := by
  have hb : buildFromProperties c1Schema "creator" = .ok c1Details :=
    (build_ok_iff c1Schema "creator").mpr (by decide)
  refine ⟨hb, C1_self_certification.2.2.1 c1Schema "creator" c1Details hb, ?_, ?_⟩
  · refine C1_self_certification.2.1 c1Mismatch (by decide) ?_
    have hgf : getField c1Mismatch "$id" = some (.str "schema:cord:mAB") := by
      rw [c1Mismatch, getField]
      simp [List.find?]
    rw [hgf]
    intro he
    simp only [Option.some.injEq, JsonValue.str.injEq] at he
    exact absurd he (by decide)
  · refine C1_self_certification.2.2.2 c1Schema "creator" c1Details c1Tampered hb
      (by decide) ?_ ?_
    · show getField c1Tampered "$id" = getField c1Details.schema "$id"
      have h1 : getField c1Details.schema "$id"
          = some (.str (getUriForSchema (uriSchemaOf c1Schema)).uri) :=
        getField_schemaTypeOf_id c1Schema
      rw [h1, c1Tampered, getField]
      simp [List.find?]
    · intro hj
      have hs := jeq_sortObj hj (by decide)
      exact absurd hs (by decide)

theorem C3_hashes_transport_encoding_witness :
    getHashForSchema [("title", .str "T")] = hashStr (encodeCborSchema [("title", .str "T")]) ∧
    strSyms (encodeCborSchema [("title", .str "T")]) ≠ rawCanonicalBytes [("title", .str "T")] :=
  ⟨(C3_hashes_transport_encoding [("title", .str "T")]).1,
   (C3_hashes_transport_encoding [("title", .str "T")]).2.2.2⟩
